import Mathlib

/-!
# Verification of the shortest-path engine (`src/lib/dijkstra.ts`)

This file gives a shallow embedding of the `dijkstra` function of
`src/lib/dijkstra.ts` and proves the specification claims about it.

Modelling conventions:
* JavaScript strings are Lean `String`s.
* JavaScript numbers (edge weights, distances) are rationals `ℚ`; the
  distinguished value `Infinity` is modelled by `Option ℚ` with `none`
  standing for `Infinity` (the only place where `Infinity` arithmetic
  occurs is `Infinity + w = Infinity` and comparisons, both made explicit
  below).
* A JavaScript `Map` is an association list kept in insertion order:
  `set` on a present key overwrites the value in place (keeping the key's
  original position), `set` on an absent key appends, and iteration is
  list order.  A JavaScript `Set` of strings is a `List String` without
  duplicates, with `add` appending and `delete` removing.
* The maps `distances` and `previous`, which are only ever read and
  written pointwise (never iterated), are modelled as total functions
  `String → Option ℚ` and `String → Option String`, with the defaults
  `none` matching their initialisation (`Infinity` / `null`).
* The expression `previous.get(current) || null` of line 119 is falsy on
  the empty string, so it maps both `null` and `""` to `null`; this is
  modelled faithfully by `jsOrNull`.
* The two `while` loops are modelled with an explicit step budget (fuel)
  that is large enough to reproduce the JavaScript behaviour exactly;
  fuel-sufficiency is proved, not assumed (see the termination theorems).
-/

namespace GraphViewer

/-- An input edge, `GraphEdge` of `src/lib/dijkstra.ts` (`from` is a Lean
keyword and so is `to`, so the fields are called `from_` and `to_`). -/
structure GraphEdge where
  from_ : String
  to_ : String
  weight : ℚ
  deriving DecidableEq, Repr

/-- `Map.set` of a JavaScript `Map` encoded as an association list:
overwrite in place when the key is present, append otherwise. -/
def mset {α : Type} (m : List (String × α)) (k : String) (v : α) :
    List (String × α) :=
  if m.any (fun p => p.1 = k) then
    m.map (fun p => if p.1 = k then (k, v) else p)
  else
    m ++ [(k, v)]

/-- `Map.get` of a JavaScript `Map` encoded as an association list. -/
def mget {α : Type} (m : List (String × α)) (k : String) : Option α :=
  (m.find? (fun p => p.1 = k)).map (fun p => p.2)

/-- `Map.has` of a JavaScript `Map` encoded as an association list. -/
def mhas {α : Type} (m : List (String × α)) (k : String) : Bool :=
  m.any (fun p => p.1 = k)

/-- The adjacency structure `graph : Map<string, Map<string, number>>`. -/
abbrev Graph : Type := List (String × List (String × ℚ))

/-- The body of the loop of lines 30–41: insert one edge into the
adjacency map (ensure both endpoint keys exist, then write the weight in
both directions). -/
def addEdge (graph : Graph) (edge : GraphEdge) : Graph :=
  let graph := if mhas graph edge.from_ then graph else mset graph edge.from_ []
  let graph := if mhas graph edge.to_ then graph else mset graph edge.to_ []
  let graph := mset graph edge.from_
    (mset ((mget graph edge.from_).getD []) edge.to_ edge.weight)
  mset graph edge.to_
    (mset ((mget graph edge.to_).getD []) edge.from_ edge.weight)

/-- Lines 30–41: build the adjacency map from the edge list
(undirected, both directions, last write wins). -/
def buildGraph (edges : List GraphEdge) : Graph :=
  edges.foldl addEdge []

/-- The effective weight of the directed adjacency entry `u → v` of the
built graph (`none` when there is no entry). -/
def adjW (graph : Graph) (u v : String) : Option ℚ :=
  match mget graph u with
  | some nbrs => mget nbrs v
  | none => none

/-- Strict comparison on `Option ℚ` where `none` is `Infinity`:
`a < b` in the JavaScript sense. -/
def oltb : Option ℚ → Option ℚ → Bool
  | some a, some b => a < b
  | some _, none => true
  | none, _ => false

/-- `x + w` where `x` may be `Infinity` (`Infinity + w = Infinity`). -/
def oadd (x : Option ℚ) (w : ℚ) : Option ℚ :=
  x.map (fun a => a + w)

/-- Pointwise update of a map-as-function. -/
def fset {α : Type} (f : String → α) (k : String) (v : α) : String → α :=
  fun x => if x = k then v else f x

/-- Lines 70–79: scan the unvisited set for the node of strictly minimal
distance, in iteration order; returns `(currentNode, minDistance)`,
starting from `(null, Infinity)`. -/
def scanMin (distances : String → Option ℚ) (unvisited : List String) :
    Option String × Option ℚ :=
  unvisited.foldl
    (fun acc node =>
      if oltb (distances node) acc.2 then (some node, distances node) else acc)
    (none, none)

/-- Lines 94–105: relax every neighbor of `currentNode` that is still
unvisited (the unvisited set already has `currentNode` removed). -/
def relaxNeighbors (currentNode : String) (unvisited : List String)
    (neighbors : List (String × ℚ))
    (dp : (String → Option ℚ) × (String → Option String)) :
    (String → Option ℚ) × (String → Option String) :=
  neighbors.foldl
    (fun dp nb =>
      if unvisited.contains nb.1 then
        let alt := oadd (dp.1 currentNode) nb.2
        if oltb alt (dp.1 nb.1) then
          (fset dp.1 nb.1 alt, fset dp.2 nb.1 (some currentNode))
        else dp
      else dp)
    dp

/-- Lines 68–106: the main search loop, with an explicit fuel that bounds
the number of iterations.  Each iteration either breaks (returning the
current `distances`/`previous` state) or removes the selected node from
the unvisited set and relaxes its neighbors. -/
def dijkstraLoop (graph : Graph) (endNode : String) :
    Nat → (String → Option ℚ) × (String → Option String) → List String →
    (String → Option ℚ) × (String → Option String)
  | 0, dp, _ => dp
  | fuel + 1, dp, unvisited =>
    if unvisited.isEmpty then dp
    else
      match scanMin dp.1 unvisited with
      | (some currentNode, some _) =>
        if currentNode = endNode then dp
        else
          let unvisited' := unvisited.erase currentNode
          let neighbors := (mget graph currentNode).getD []
          dijkstraLoop graph endNode fuel
            (relaxNeighbors currentNode unvisited' neighbors dp) unvisited'
      | _ => dp

/-- Line 119's `previous.get(current) || null`: the JavaScript `||` is
falsy on `null` and on the empty string, so both collapse to `null`. -/
def jsOrNull : Option String → Option String
  | some v => if v = "" then none else some v
  | none => none

/-- Lines 117–120: the backward reconstruction loop (`unshift` prepends),
with an explicit fuel bounding the number of iterations. -/
def reconstructPath (previous : String → Option String) :
    Nat → Option String → List String → List String
  | 0, _, path => path
  | fuel + 1, cur, path =>
    match cur with
    | none => path
    | some c => reconstructPath previous fuel (jsOrNull (previous c)) (c :: path)

/-- Lines 21–133: the `dijkstra` function.  Returns
`some (path, distance)` for a non-null `ShortestPathResult` and `none`
for `null`.  `loopFuel`/`reconFuel` generalise the step budgets of the
two loops; `dijkstra` below instantiates them at the provably sufficient
values (adding to them does not change the result — see the termination
theorems). -/
def dijkstraFueled (extraFuel : Nat) (edges : List GraphEdge)
    (startNode endNode : String) : Option (List String × ℚ) :=
  let graph := buildGraph edges
  if ¬ (mhas graph startNode ∧ mhas graph endNode) then none
  else if startNode = endNode then some ([startNode], 0)
  else
    let nodes := graph.map (fun p => p.1)
    let distances : String → Option ℚ := fset (fun _ => none) startNode (some 0)
    let previous : String → Option String := fun _ => none
    let dp := dijkstraLoop graph endNode (nodes.length + extraFuel)
      (distances, previous) nodes
    if dp.2 endNode = none ∧ startNode ≠ endNode then none
    else
      let path := reconstructPath dp.2 (nodes.length + 1 + extraFuel)
        (some endNode) []
      match dp.1 endNode with
      | none => none
      | some distance => if path.isEmpty then none else some (path, distance)

/-- The `dijkstra` function with its actual step budgets. -/
def dijkstra (edges : List GraphEdge) (startNode endNode : String) :
    Option (List String × ℚ) :=
  dijkstraFueled 0 edges startNode endNode

/-! ## Specification-side notions: walks in the derived undirected graph -/

/-- `isWalkb g P` holds when the nonempty node sequence `P` is a
contiguous walk of the adjacency structure `g`: every consecutive pair
has an adjacency entry. -/
def isWalkb (g : Graph) : List String → Bool
  | [] => false
  | [_] => true
  | x :: y :: rest => (adjW g x y).isSome && isWalkb g (y :: rest)

/-- Total edge weight of a node sequence (effective adjacency weights,
summed over consecutive pairs). -/
def walkCost (g : Graph) : List String → ℚ
  | x :: y :: rest => (adjW g x y).getD 0 + walkCost g (y :: rest)
  | _ => 0

/-- `P` is a contiguous walk from `s` to `e` in `g`. -/
def WalkFrom (g : Graph) (s e : String) (P : List String) : Prop :=
  isWalkb g P = true ∧ P.head? = some s ∧ P.getLast? = some e

/-- Some walk of `g` connects `s` to `e`. -/
def Connected (g : Graph) (s e : String) : Prop :=
  ∃ P, WalkFrom g s e P

/-- Instrumentation of `dijkstra` for the defensive double-check of
lines 124–127: this function runs the same computation and returns
`true` exactly when control reaches line 125 with `distance === Infinity`
or an empty reconstructed path — that is, when the defensive `null`
branch fires. -/
def defensiveCheckFires (edges : List GraphEdge) (startNode endNode : String) :
    Bool :=
  let graph := buildGraph edges
  if ¬ (mhas graph startNode ∧ mhas graph endNode) then false
  else if startNode = endNode then false
  else
    let nodes := graph.map (fun p => p.1)
    let distances : String → Option ℚ := fset (fun _ => none) startNode (some 0)
    let previous : String → Option String := fun _ => none
    let dp := dijkstraLoop graph endNode nodes.length (distances, previous) nodes
    if dp.2 endNode = none ∧ startNode ≠ endNode then false
    else
      let path := reconstructPath dp.2 (nodes.length + 1) (some endNode) []
      decide (dp.1 endNode = none) || path.isEmpty

/-- One step of the cursor of the backward reconstruction loop. -/
def stepChain (previous : String → Option String) :
    Option String → Option String
  | none => none
  | some c => jsOrNull (previous c)

/-- The reconstruction cursor starting from `c` reaches `null` within
`m` steps (so the `while` loop of lines 117–120 terminates). -/
def ChainDies (previous : String → Option String) (m : Nat)
    (c : Option String) : Prop :=
  (stepChain previous)^[m] c = none

/-! ## Basic lemmas about the JavaScript map encodings -/

theorem fset_self {α : Type} (f : String → α) (k : String) (v : α) :
    fset f k v k = v := by
  simp [fset]

theorem fset_ne {α : Type} (f : String → α) {x k : String} (h : x ≠ k)
    (v : α) : fset f k v x = f x := by
  simp [fset, h]

theorem mhas_iff_exists {α : Type} (m : List (String × α)) (x : String) :
    mhas m x = true ↔ ∃ p ∈ m, p.1 = x := by
  simp [mhas, List.any_eq_true]

theorem mhas_iff_mem_keys {α : Type} (m : List (String × α)) (x : String) :
    mhas m x = true ↔ x ∈ m.map (fun p => p.1) := by
  simp [mhas, List.any_eq_true, List.mem_map]

theorem mset_eq_map {α : Type} {m : List (String × α)} {k : String}
    (h : mhas m k = true) (v : α) :
    mset m k v = m.map (fun p => if p.1 = k then (k, v) else p) := by
  have h' : (m.any fun p => decide (p.1 = k)) = true := h
  simp [mset, h']

theorem mset_eq_append {α : Type} {m : List (String × α)} {k : String}
    (h : mhas m k = false) (v : α) :
    mset m k v = m ++ [(k, v)] := by
  have h' : (m.any fun p => decide (p.1 = k)) = false := h
  simp [mset, h']

theorem mget_eq_none_iff {α : Type} (m : List (String × α)) (x : String) :
    mget m x = none ↔ mhas m x = false := by
  induction m with
  | nil => simp [mget, mhas]
  | cons p t ih =>
    by_cases hp : p.1 = x
    · simp [mget, mhas, List.find?, hp]
    · simpa [mget, mhas, List.find?, hp] using ih

theorem mget_isSome_of_mhas {α : Type} {m : List (String × α)} {x : String}
    (h : mhas m x = true) : ∃ v, mget m x = some v := by
  rcases ho : mget m x with _ | v
  · rw [mget_eq_none_iff] at ho
    rw [ho] at h
    cases h
  · exact ⟨v, rfl⟩

theorem keys_mset {α : Type} (m : List (String × α)) (k : String) (v : α) :
    (mset m k v).map (fun p => p.1) =
      if mhas m k = true then m.map (fun p => p.1)
      else m.map (fun p => p.1) ++ [k] := by
  by_cases h : mhas m k = true
  · rw [if_pos h, mset_eq_map h v, List.map_map]
    congr 1
    funext p
    by_cases hp : p.1 = k
    · simp [hp]
    · simp [hp]
  · rw [if_neg h, mset_eq_append (by simpa using h) v]
    simp

theorem mhas_mset_iff {α : Type} (m : List (String × α)) (k : String) (v : α)
    (x : String) : mhas (mset m k v) x = true ↔ mhas m x = true ∨ x = k := by
  by_cases h : mhas m k = true
  · rw [mset_eq_map h v, mhas_iff_mem_keys, List.map_map]
    have hkeys :
        (fun p : String × α => ((if p.1 = k then (k, v) else p) : String × α).1)
          = fun p : String × α => p.1 := by
      funext p
      by_cases hp : p.1 = k
      · simp [hp]
      · simp [hp]
    rw [show ((fun p : String × α => p.1) ∘
          fun p : String × α => if p.1 = k then (k, v) else p)
        = fun p : String × α => p.1 from hkeys, ← mhas_iff_mem_keys]
    constructor
    · exact fun hx => Or.inl hx
    · rintro (hx | rfl)
      · exact hx
      · exact h
  · rw [mset_eq_append (by simpa using h) v, mhas_iff_mem_keys,
      List.map_append, List.mem_append, ← mhas_iff_mem_keys]
    simp

theorem mget_cons {α : Type} (p : String × α) (t : List (String × α))
    (x : String) :
    mget (p :: t) x = if p.1 = x then some p.2 else mget t x := by
  by_cases hp : p.1 = x <;> simp [mget, List.find?, hp]

theorem mhas_cons {α : Type} (p : String × α) (t : List (String × α))
    (x : String) :
    mhas (p :: t) x = (decide (p.1 = x) || mhas t x) := by
  simp [mhas]

theorem mget_mset_map_ne {α : Type} (m : List (String × α)) (k : String)
    (v : α) {x : String} (hx : x ≠ k) :
    mget (m.map (fun p => if p.1 = k then (k, v) else p)) x = mget m x := by
  induction m with
  | nil => rfl
  | cons p t ih =>
    by_cases hp : p.1 = k
    · rw [List.map_cons, if_pos hp, mget_cons, mget_cons,
        if_neg (fun h => hx h.symm), if_neg (fun h => hx (hp ▸ h.symm))]
      exact ih
    · rw [List.map_cons, if_neg hp, mget_cons, mget_cons]
      by_cases hpx : p.1 = x
      · rw [if_pos hpx, if_pos hpx]
      · rw [if_neg hpx, if_neg hpx]
        exact ih

theorem mget_mset_map_self {α : Type} {m : List (String × α)} {k : String}
    (v : α) (h : mhas m k = true) :
    mget (m.map (fun p => if p.1 = k then (k, v) else p)) k = some v := by
  induction m with
  | nil => cases h
  | cons p t ih =>
    by_cases hp : p.1 = k
    · rw [List.map_cons, if_pos hp, mget_cons, if_pos rfl]
    · rw [mhas_cons] at h
      rw [List.map_cons, if_neg hp, mget_cons, if_neg hp]
      exact ih (by simpa [hp] using h)

theorem mget_append_single {α : Type} {m : List (String × α)} {k : String}
    (v : α) (h : mhas m k = false) (x : String) :
    mget (m ++ [(k, v)]) x = if x = k then some v else mget m x := by
  induction m with
  | nil =>
    rw [List.nil_append]
    by_cases hx : x = k
    · rw [mget_cons, if_pos hx.symm, if_pos hx]
    · rw [mget_cons, if_neg (fun hh => hx hh.symm), if_neg hx]
  | cons p t ih =>
    rw [mhas_cons] at h
    have hpk : ¬ (p.1 = k) := by
      intro hh
      simp [hh] at h
    have ht : mhas t k = false := by
      simpa [hpk] using h
    rw [List.cons_append, mget_cons, mget_cons]
    by_cases hpx : p.1 = x
    · have hxk : ¬ (x = k) := fun hh => hpk (hpx.trans hh)
      rw [if_pos hpx, if_neg hxk, if_pos hpx]
    · rw [if_neg hpx, if_neg hpx, ih ht]

theorem mget_mset {α : Type} (m : List (String × α)) (k : String) (v : α)
    (x : String) :
    mget (mset m k v) x = if x = k then some v else mget m x := by
  by_cases h : mhas m k = true
  · rw [mset_eq_map h v]
    by_cases hx : x = k
    · rw [if_pos hx, hx, mget_mset_map_self v h]
    · rw [if_neg hx, mget_mset_map_ne m k v hx]
  · rw [mset_eq_append (by simpa using h) v,
      mget_append_single v (by simpa using h) x]

/-! ## Characterisation of `addEdge` and `buildGraph` -/

theorem adjW_outer_mset (G : Graph) (k : String)
    (nbrs : List (String × ℚ)) (u v : String) :
    adjW (mset G k nbrs) u v = if u = k then mget nbrs v else adjW G u v := by
  by_cases h : u = k
  · simp [adjW, mget_mset, h]
  · simp [adjW, mget_mset, h]

theorem mget_nil {α : Type} (x : String) :
    mget ([] : List (String × α)) x = none := rfl

theorem adjW_ensure (G : Graph) (k u v : String) :
    adjW (if mhas G k = true then G else mset G k []) u v = adjW G u v := by
  by_cases h : mhas G k = true
  · rw [if_pos h]
  · rw [if_neg h, adjW_outer_mset]
    by_cases hu : u = k
    · rw [if_pos hu]
      have hnone : mget G u = none := by
        rw [mget_eq_none_iff]
        rw [hu]
        simpa using h
      simp [adjW, hnone, mget_nil]
    · rw [if_neg hu]

theorem mhas_ensure (G : Graph) (k x : String) :
    mhas (if mhas G k = true then G else mset G k []) x = true ↔
      mhas G x = true ∨ x = k := by
  by_cases h : mhas G k = true
  · rw [if_pos h]
    constructor
    · exact fun hx => Or.inl hx
    · rintro (hx | rfl)
      · exact hx
      · exact h
  · rw [if_neg h]
    exact mhas_mset_iff G k [] x

theorem mgetD_ensure_self (G : Graph) (k : String) :
    (mget (if mhas G k = true then G else mset G k []) k).getD [] =
      (mget G k).getD [] := by
  by_cases h : mhas G k = true
  · rw [if_pos h]
  · rw [if_neg h, mget_mset, if_pos rfl]
    have hnone : mget G k = none := by
      rw [mget_eq_none_iff]
      simpa using h
    rw [hnone]
    rfl

theorem mget_ensure_ne (G : Graph) (k : String) {x : String} (hx : x ≠ k) :
    mget (if mhas G k = true then G else mset G k []) x = mget G x := by
  by_cases h : mhas G k = true
  · rw [if_pos h]
  · rw [if_neg h, mget_mset, if_neg hx]

theorem mget_getD_eq_adjW (G : Graph) (k v : String) :
    mget ((mget G k).getD []) v = adjW G k v := by
  rcases h : mget G k with _ | nbrs <;> simp [adjW, h, mget_nil]

theorem adjW_addEdge (g : Graph) (e : GraphEdge) (u v : String) :
    adjW (addEdge g e) u v =
      if u = e.to_ ∧ v = e.from_ then some e.weight
      else if u = e.from_ ∧ v = e.to_ then some e.weight
      else adjW g u v := by
  by_cases h1 : u = e.to_ <;> by_cases h2 : v = e.from_ <;>
    by_cases h3 : u = e.from_ <;> by_cases h4 : v = e.to_ <;>
      by_cases h5 : e.to_ = e.from_ <;>
        simp [addEdge, adjW_outer_mset, mget_mset, mget_getD_eq_adjW,
          adjW_ensure, mgetD_ensure_self, mget_ensure_ne,
          h1, h2, h3, h4, h5] <;>
        exact fun hh => absurd hh.symm h5

theorem mhas_addEdge (g : Graph) (e : GraphEdge) (x : String) :
    mhas (addEdge g e) x = true ↔
      mhas g x = true ∨ x = e.from_ ∨ x = e.to_ := by
  simp only [addEdge]
  rw [mhas_mset_iff, mhas_mset_iff, mhas_ensure, mhas_ensure]
  tauto

theorem nodup_keys_mset {α : Type} {m : List (String × α)} (k : String)
    (v : α) (h : (m.map (fun p => p.1)).Nodup) :
    ((mset m k v).map (fun p => p.1)).Nodup := by
  rw [keys_mset]
  by_cases hk : mhas m k = true
  · rw [if_pos hk]
    exact h
  · rw [if_neg hk, List.nodup_append]
    refine ⟨h, List.nodup_singleton k, ?_⟩
    intro a ha hb
    rw [List.mem_singleton] at hb
    subst hb
    exact hk ((mhas_iff_mem_keys m a).mpr ha)

theorem nodup_keys_ensure {m : Graph} (k : String)
    (h : (m.map (fun p => p.1)).Nodup) :
    (((if mhas m k = true then m else mset m k []) : Graph).map
      (fun p => p.1)).Nodup := by
  by_cases hk : mhas m k = true
  · rw [if_pos hk]
    exact h
  · rw [if_neg hk]
    exact nodup_keys_mset k [] h

theorem nodup_keys_addEdge {g : Graph} (e : GraphEdge)
    (h : (g.map (fun p => p.1)).Nodup) :
    ((addEdge g e).map (fun p => p.1)).Nodup := by
  simp only [addEdge]
  exact nodup_keys_mset _ _ (nodup_keys_mset _ _
    (nodup_keys_ensure _ (nodup_keys_ensure _ h)))

/-- All neighbor lists stored in the adjacency map have duplicate-free
key lists (true of every `Map<string, number>` built by `Map.set`). -/
def AdjNodup (G : Graph) : Prop :=
  ∀ k nbrs, mget G k = some nbrs → (nbrs.map (fun p => p.1)).Nodup

theorem adjNodup_ensure {G : Graph} (k : String) (h : AdjNodup G) :
    AdjNodup (if mhas G k = true then G else mset G k []) := by
  by_cases hk : mhas G k = true
  · rwa [if_pos hk]
  · rw [if_neg hk]
    intro x nbrs hx
    rw [mget_mset] at hx
    by_cases hxk : x = k
    · rw [if_pos hxk] at hx
      cases hx
      simp
    · rw [if_neg hxk] at hx
      exact h x nbrs hx

theorem adjNodup_mset_adj {G : Graph} (k x : String) (w : ℚ)
    (h : AdjNodup G) :
    AdjNodup (mset G k (mset ((mget G k).getD []) x w)) := by
  intro y nbrs hy
  rw [mget_mset] at hy
  by_cases hyk : y = k
  · rw [if_pos hyk] at hy
    cases hy
    apply nodup_keys_mset
    rcases hG : mget G k with _ | l
    · simp [hG]
    · simpa [hG] using h k l hG
  · rw [if_neg hyk] at hy
    exact h y nbrs hy

theorem adjNodup_addEdge {g : Graph} (e : GraphEdge) (h : AdjNodup g) :
    AdjNodup (addEdge g e) := by
  simp only [addEdge]
  exact adjNodup_mset_adj _ _ _ (adjNodup_mset_adj _ _ _
    (adjNodup_ensure _ (adjNodup_ensure _ h)))

/-- Structural well-formedness of the built adjacency map. -/
structure GraphWF (g : Graph) : Prop where
  nodupKeys : (g.map (fun p => p.1)).Nodup
  targetsHaveKeys : ∀ u v, adjW g u v ≠ none →
    mhas g u = true ∧ mhas g v = true
  adjSymm : ∀ u v, adjW g u v = adjW g v u
  adjNodup : AdjNodup g

theorem graphWF_addEdge {g : Graph} (e : GraphEdge) (h : GraphWF g) :
    GraphWF (addEdge g e) := by
  refine ⟨nodup_keys_addEdge e h.nodupKeys, ?_, ?_, adjNodup_addEdge e h.adjNodup⟩
  · intro u v hne
    rw [adjW_addEdge] at hne
    by_cases h1 : u = e.to_ ∧ v = e.from_
    · constructor
      · rw [mhas_addEdge]
        exact Or.inr (Or.inr h1.1)
      · rw [mhas_addEdge]
        exact Or.inr (Or.inl h1.2)
    · rw [if_neg h1] at hne
      by_cases h2 : u = e.from_ ∧ v = e.to_
      · constructor
        · rw [mhas_addEdge]
          exact Or.inr (Or.inl h2.1)
        · rw [mhas_addEdge]
          exact Or.inr (Or.inr h2.2)
      · rw [if_neg h2] at hne
        have := h.targetsHaveKeys u v hne
        exact ⟨(mhas_addEdge g e u).mpr (Or.inl this.1),
          (mhas_addEdge g e v).mpr (Or.inl this.2)⟩
  · intro u v
    rw [adjW_addEdge, adjW_addEdge, h.adjSymm u v]
    by_cases h1 : u = e.to_ ∧ v = e.from_ <;>
      by_cases h2 : u = e.from_ ∧ v = e.to_ <;>
        simp [h1, h2, and_comm]

theorem graphWF_nil : GraphWF ([] : Graph) := by
  refine ⟨List.nodup_nil, ?_, ?_, ?_⟩
  · intro u v hne
    exact absurd rfl hne
  · intro u v
    rfl
  · intro k nbrs hk
    cases hk

theorem graphWF_foldl {g : Graph} (l : List GraphEdge) (h : GraphWF g) :
    GraphWF (l.foldl addEdge g) := by
  induction l generalizing g with
  | nil => exact h
  | cons e t ih => exact ih (graphWF_addEdge e h)

theorem graphWF_buildGraph (edges : List GraphEdge) :
    GraphWF (buildGraph edges) :=
  graphWF_foldl edges graphWF_nil

theorem mhas_foldl_addEdge (l : List GraphEdge) (g : Graph) (x : String) :
    mhas (l.foldl addEdge g) x = true ↔
      mhas g x = true ∨ ∃ e ∈ l, e.from_ = x ∨ e.to_ = x := by
  induction l generalizing g with
  | nil => simp
  | cons e t ih =>
    rw [List.foldl_cons, ih, mhas_addEdge]
    constructor
    · rintro ((hg | h1 | h2) | ⟨e', he', hx⟩)
      · exact Or.inl hg
      · exact Or.inr ⟨e, List.mem_cons_self e t, Or.inl h1.symm⟩
      · exact Or.inr ⟨e, List.mem_cons_self e t, Or.inr h2.symm⟩
      · exact Or.inr ⟨e', List.mem_cons_of_mem e he', hx⟩
    · rintro (hg | ⟨e', he', hx⟩)
      · exact Or.inl (Or.inl hg)
      · rcases List.mem_cons.mp he' with rfl | ht
        · rcases hx with hx | hx
          · exact Or.inl (Or.inr (Or.inl hx.symm))
          · exact Or.inl (Or.inr (Or.inr hx.symm))
        · exact Or.inr ⟨e', ht, hx⟩

theorem mhas_buildGraph_iff (edges : List GraphEdge) (x : String) :
    mhas (buildGraph edges) x = true ↔
      ∃ e ∈ edges, e.from_ = x ∨ e.to_ = x := by
  rw [buildGraph, mhas_foldl_addEdge]
  simp [mhas]

theorem adjW_foldl_weights {C : ℚ → Prop} (l : List GraphEdge) (g : Graph)
    (hg : ∀ u v w, adjW g u v = some w → C w)
    (hl : ∀ e ∈ l, C e.weight) :
    ∀ u v w, adjW (l.foldl addEdge g) u v = some w → C w := by
  induction l generalizing g with
  | nil => exact hg
  | cons e t ih =>
    rw [List.foldl_cons]
    apply ih
    · intro u v w hw
      rw [adjW_addEdge] at hw
      by_cases h1 : u = e.to_ ∧ v = e.from_
      · rw [if_pos h1] at hw
        cases hw
        exact hl e (List.mem_cons_self e t)
      · rw [if_neg h1] at hw
        by_cases h2 : u = e.from_ ∧ v = e.to_
        · rw [if_pos h2] at hw
          cases hw
          exact hl e (List.mem_cons_self e t)
        · rw [if_neg h2] at hw
          exact hg u v w hw
    · intro e' he'
      exact hl e' (List.mem_cons_of_mem e he')

theorem adjW_buildGraph_weights {C : ℚ → Prop} (edges : List GraphEdge)
    (hl : ∀ e ∈ edges, C e.weight) :
    ∀ u v w, adjW (buildGraph edges) u v = some w → C w := by
  refine adjW_foldl_weights edges [] ?_ hl
  intro u v w hw
  cases hw

/-! ## Order lemmas for `Option ℚ` with `none = Infinity` -/

/-- `a ⊑ b` for extended distances (`none` being `Infinity`). -/
def ole : Option ℚ → Option ℚ → Prop
  | _, none => True
  | none, some _ => False
  | some a, some b => a ≤ b

theorem oltb_none_left (x : Option ℚ) : oltb none x = false := rfl

theorem oltb_some_none (a : ℚ) : oltb (some a) none = true := rfl

theorem oltb_some_some (a b : ℚ) : oltb (some a) (some b) = decide (a < b) := rfl

theorem ole_refl (x : Option ℚ) : ole x x := by
  cases x <;> simp [ole]

theorem ole_of_oltb_eq_false {a : Option ℚ} {b : ℚ}
    (h : oltb (some b) a = false) : ole a (some b) := by
  cases a with
  | none => cases h
  | some r =>
    rw [oltb_some_some, decide_eq_false_iff_not] at h
    exact le_of_not_lt h

theorem ole_trans {a b c : Option ℚ} (h1 : ole a b) (h2 : ole b c) :
    ole a c := by
  cases a <;> cases b <;> cases c <;> simp [ole] at * <;> linarith

/-! ## Lemmas about walks -/

theorem isWalkb_singleton (g : Graph) (x : String) :
    isWalkb g [x] = true := rfl

theorem walkFrom_singleton (g : Graph) (s e x : String) :
    WalkFrom g s e [x] ↔ x = s ∧ x = e := by
  simp [WalkFrom, isWalkb]

theorem walkFrom_self (g : Graph) (s : String) : WalkFrom g s s [s] := by
  rw [walkFrom_singleton]
  exact ⟨rfl, rfl⟩

theorem walkFrom_nonempty {g : Graph} {s e : String} {P : List String}
    (h : WalkFrom g s e P) : P ≠ [] := by
  intro hP
  rw [hP] at h
  cases h.1

theorem walkFrom_cons_cons {g : Graph} {s e x y : String}
    {rest : List String} :
    WalkFrom g s e (x :: y :: rest) ↔
      x = s ∧ (adjW g x y).isSome = true ∧ WalkFrom g y e (y :: rest) := by
  constructor
  · rintro ⟨hw, hh, hl⟩
    rw [isWalkb, Bool.and_eq_true] at hw
    refine ⟨by simpa using hh, hw.1, hw.2, rfl, ?_⟩
    rwa [List.getLast?_cons_cons] at hl
  · rintro ⟨rfl, hadj, hw, hh, hl⟩
    refine ⟨?_, rfl, ?_⟩
    · rw [isWalkb, Bool.and_eq_true]
      exact ⟨hadj, hw⟩
    · rwa [List.getLast?_cons_cons]

theorem walkCost_cons_cons (g : Graph) (x y : String) (rest : List String) :
    walkCost g (x :: y :: rest) =
      (adjW g x y).getD 0 + walkCost g (y :: rest) := rfl

theorem walkCost_singleton (g : Graph) (x : String) : walkCost g [x] = 0 := rfl

theorem walkFrom_snoc {g : Graph} {s u v : String} {P : List String} {w : ℚ}
    (h : WalkFrom g s u P) (hadj : adjW g u v = some w) :
    WalkFrom g s v (P ++ [v]) ∧
      walkCost g (P ++ [v]) = walkCost g P + w := by
  induction P generalizing s with
  | nil => exact absurd rfl (walkFrom_nonempty h)
  | cons x rest ih =>
    cases rest with
    | nil =>
      rw [walkFrom_singleton] at h
      rcases h with ⟨rfl, rfl⟩
      constructor
      · rw [List.singleton_append, walkFrom_cons_cons]
        exact ⟨rfl, by simp [hadj], walkFrom_self g v⟩
      · rw [List.singleton_append, walkCost_cons_cons,
          walkCost_singleton, walkCost_singleton, hadj]
        simp
    | cons y rest' =>
      rw [walkFrom_cons_cons] at h
      rcases h with ⟨rfl, hxy, htail⟩
      rcases ih htail with ⟨hw', hc'⟩
      have hsh : (x :: y :: rest') ++ [v] = x :: (y :: (rest' ++ [v])) := by
        simp
      have hsh2 : (y :: rest') ++ [v] = y :: (rest' ++ [v]) := by simp
      constructor
      · rw [hsh, walkFrom_cons_cons]
        refine ⟨rfl, hxy, ?_⟩
        rw [← hsh2]
        exact hw'
      · rw [hsh, walkCost_cons_cons, ← hsh2, hc', walkCost_cons_cons]
        ring

theorem walkCost_nonneg {g : Graph}
    (hnn : ∀ u v w, adjW g u v = some w → 0 ≤ w) :
    ∀ {P : List String}, isWalkb g P = true → 0 ≤ walkCost g P := by
  intro P
  induction P with
  | nil => intro h; cases h
  | cons x rest ih =>
    cases rest with
    | nil => intro _; simp [walkCost_singleton]
    | cons y rest' =>
      intro hw
      rw [isWalkb, Bool.and_eq_true] at hw
      rw [walkCost_cons_cons]
      have h1 : 0 ≤ (adjW g x y).getD 0 := by
        rcases ha : adjW g x y with _ | w
        · simp
        · simpa using hnn x y w ha
      have h2 : 0 ≤ walkCost g (y :: rest') := ih hw.2
      linarith

theorem walkFrom_reverse {g : Graph} (hsym : ∀ u v, adjW g u v = adjW g v u)
    {s e : String} {P : List String} (h : WalkFrom g s e P) :
    WalkFrom g e s P.reverse ∧ walkCost g P.reverse = walkCost g P := by
  induction P generalizing s with
  | nil => exact absurd rfl (walkFrom_nonempty h)
  | cons x rest ih =>
    cases rest with
    | nil =>
      rw [walkFrom_singleton] at h
      rcases h with ⟨rfl, rfl⟩
      exact ⟨by simpa using walkFrom_self g x, rfl⟩
    | cons y rest' =>
      rw [walkFrom_cons_cons] at h
      rcases h with ⟨rfl, hxy, htail⟩
      rcases ih htail with ⟨hw', hc'⟩
      rcases Option.isSome_iff_exists.mp hxy with ⟨w, hxyw⟩
      have hyx : adjW g y x = some w := (hsym y x).trans hxyw
      have hsnoc := walkFrom_snoc hw' hyx
      constructor
      · have : (x :: y :: rest').reverse = (y :: rest').reverse ++ [x] := by
          simp
        rw [this]
        exact hsnoc.1
      · have : (x :: y :: rest').reverse = (y :: rest').reverse ++ [x] := by
          simp
        rw [this, hsnoc.2, hc', walkCost_cons_cons, hxyw]
        simp [add_comm]

theorem connected_symm {g : Graph} (hsym : ∀ u v, adjW g u v = adjW g v u)
    {s e : String} (h : Connected g s e) : Connected g e s := by
  rcases h with ⟨P, hP⟩
  exact ⟨P.reverse, (walkFrom_reverse hsym hP).1⟩

/-! ## Specification of `scanMin` -/

theorem scanMin_append (d : String → Option ℚ) (U : List String)
    (y : String) :
    scanMin d (U ++ [y]) =
      (if oltb (d y) (scanMin d U).2 = true
        then (some y, d y) else scanMin d U) := by
  simp [scanMin, List.foldl_append]

theorem scanMin_spec (d : String → Option ℚ) (U : List String) :
    (scanMin d U = (none, none) ∧ ∀ y ∈ U, d y = none) ∨
    (∃ u m, scanMin d U = (some u, some m) ∧ u ∈ U ∧ d u = some m ∧
      ∀ y ∈ U, oltb (d y) (some m) = false) := by
  induction U using List.reverseRecOn with
  | nil => exact Or.inl ⟨rfl, by simp⟩
  | append_singleton U y ih =>
    rw [scanMin_append]
    rcases ih with ⟨hs, hall⟩ | ⟨u, m, hs, hu, hd, hmin⟩
    · rw [hs]
      rcases hy : d y with _ | t
      · rw [oltb_none_left]
        exact Or.inl ⟨by simp, by
          intro z hz
          rcases List.mem_append.mp hz with hz | hz
          · exact hall z hz
          · rw [List.mem_singleton.mp hz]
            exact hy⟩
      · rw [oltb_some_none]
        refine Or.inr ⟨y, t, by simp [hy], List.mem_append_right U (by simp), hy, ?_⟩
        intro z hz
        rcases List.mem_append.mp hz with hz | hz
        · rw [hall z hz, oltb_none_left]
        · rw [List.mem_singleton.mp hz, hy, oltb_some_some]
          simp
    · have hs2 : (scanMin d U).2 = some m := by rw [hs]
      rw [hs2]
      by_cases hlt : oltb (d y) (some m) = true
      · rcases hy : d y with _ | t
        · rw [hy, oltb_none_left] at hlt
          cases hlt
        · rw [hy] at hlt
          rw [if_pos hlt]
          rw [oltb_some_some, decide_eq_true_eq] at hlt
          refine Or.inr ⟨y, t, rfl, List.mem_append_right U (by simp), hy, ?_⟩
          intro z hz
          rcases List.mem_append.mp hz with hz | hz
          · have hmz := hmin z hz
            rcases hzv : d z with _ | r
            · rw [oltb_none_left]
            · rw [hzv] at hmz
              rw [oltb_some_some] at hmz ⊢
              rw [decide_eq_false_iff_not] at hmz
              rw [decide_eq_false_iff_not]
              intro hrt
              exact hmz (hrt.trans hlt)
          · rw [List.mem_singleton.mp hz, hy, oltb_some_some]
            simp
      · rw [if_neg hlt, hs]
        refine Or.inr ⟨u, m, rfl, List.mem_append_left _ hu, hd, ?_⟩
        intro z hz
        rcases List.mem_append.mp hz with hz | hz
        · exact hmin z hz
        · rw [List.mem_singleton.mp hz]
          exact Bool.eq_false_iff.mpr (fun hb => hlt hb)

/-! ## Characterisation of `relaxNeighbors` -/

theorem mget_eq_some_iff_mem {α : Type} {m : List (String × α)}
    (hn : (m.map (fun p => p.1)).Nodup) (x : String) (w : α) :
    mget m x = some w ↔ (x, w) ∈ m := by
  constructor
  · intro h
    rcases hf : m.find? (fun p => p.1 = x) with _ | q
    · rw [mget, hf] at h
      cases h
    · have hq2 : q.2 = w := by
        rw [mget, hf] at h
        simpa using h
      have hq1 : q.1 = x := by
        have := List.find?_some hf
        simpa using this
      have hmem := List.mem_of_find?_eq_some hf
      have : q = (x, w) := Prod.ext hq1 hq2
      rwa [this] at hmem
  · intro h
    induction m with
    | nil => cases h
    | cons p t ih =>
      rcases List.mem_cons.mp h with rfl | ht
      · rw [mget_cons, if_pos rfl]
      · have hp1 : ¬ (p.1 = x) := by
          intro hpx
          rw [List.map_cons, List.nodup_cons] at hn
          exact hn.1 (hpx ▸ List.mem_map.mpr ⟨(x, w), ht, rfl⟩)
        rw [mget_cons, if_neg hp1]
        rw [List.map_cons, List.nodup_cons] at hn
        exact ih hn.2 ht

theorem contains_iff_mem (l : List String) (x : String) :
    l.contains x = true ↔ x ∈ l := by
  simp [List.contains]

theorem relaxStep_cons (u : String) (U' : List String)
    (nb : String × ℚ) (t : List (String × ℚ))
    (d : String → Option ℚ) (p : String → Option String) :
    relaxNeighbors u U' (nb :: t) (d, p) =
      relaxNeighbors u U' t
        (if U'.contains nb.1 = true then
          (if oltb (oadd (d u) nb.2) (d nb.1) = true then
            (fset d nb.1 (oadd (d u) nb.2), fset p nb.1 (some u))
          else (d, p))
        else (d, p)) := by
  by_cases hc : U'.contains nb.1 = true
  · by_cases hlt : oltb (oadd (d u) nb.2) (d nb.1) = true
    · simp [relaxNeighbors, hc, hlt]
    · simp [relaxNeighbors, hc, hlt]
  · simp [relaxNeighbors, hc]

theorem relax_unchanged (u : String) (U' : List String)
    (nbrs : List (String × ℚ))
    (d : String → Option ℚ) (p : String → Option String) (x : String)
    (hx : x ∉ U' ∨ ∀ w, (x, w) ∉ nbrs) :
    (relaxNeighbors u U' nbrs (d, p)).1 x = d x ∧
      (relaxNeighbors u U' nbrs (d, p)).2 x = p x := by
  induction nbrs generalizing d p with
  | nil => exact ⟨rfl, rfl⟩
  | cons nb t ih =>
    rw [relaxStep_cons]
    have htail : x ∉ U' ∨ ∀ w, (x, w) ∉ t := by
      rcases hx with hx | hx
      · exact Or.inl hx
      · exact Or.inr fun w hw => hx w (List.mem_cons_of_mem nb hw)
    by_cases hc : U'.contains nb.1 = true
    · rw [if_pos hc]
      by_cases hlt : oltb (oadd (d u) nb.2) (d nb.1) = true
      · rw [if_pos hlt]
        have hne : x ≠ nb.1 := by
          rcases hx with hx | hx
          · intro hxe
            exact hx (hxe ▸ (contains_iff_mem U' nb.1).mp hc)
          · intro hxe
            exact hx nb.2 (hxe ▸ List.mem_cons_self nb t)
        rcases ih (fset d nb.1 (oadd (d u) nb.2)) (fset p nb.1 (some u))
          htail with ⟨h1, h2⟩
        exact ⟨h1.trans (fset_ne d hne _), h2.trans (fset_ne p hne _)⟩
      · rw [if_neg hlt]
        exact ih d p htail
    · rw [if_neg hc]
      exact ih d p htail

theorem relax_at_u {u : String} {U' : List String}
    (nbrs : List (String × ℚ))
    (d : String → Option ℚ) (p : String → Option String)
    (hu : u ∉ U') :
    (relaxNeighbors u U' nbrs (d, p)).1 u = d u ∧
      (relaxNeighbors u U' nbrs (d, p)).2 u = p u :=
  relax_unchanged u U' nbrs d p u (Or.inl hu)

theorem relax_update {u : String} {U' : List String}
    {nbrs : List (String × ℚ)} (hnodup : (nbrs.map (fun p => p.1)).Nodup)
    (hu : u ∉ U')
    (d : String → Option ℚ) (p : String → Option String) {x : String}
    {w : ℚ} (hxU : x ∈ U') (hxw : (x, w) ∈ nbrs) :
    (relaxNeighbors u U' nbrs (d, p)).1 x =
      (if oltb (oadd (d u) w) (d x) = true then oadd (d u) w else d x) ∧
    (relaxNeighbors u U' nbrs (d, p)).2 x =
      (if oltb (oadd (d u) w) (d x) = true then some u else p x) := by
  induction nbrs generalizing d p with
  | nil => cases hxw
  | cons nb t ih =>
    rw [relaxStep_cons]
    rcases List.mem_cons.mp hxw with heq | hxt
    · have hnb1 : nb.1 = x := by rw [← heq]
      have hnb2 : nb.2 = w := by rw [← heq]
      rw [hnb1, hnb2, if_pos ((contains_iff_mem U' x).mpr hxU)]
      have hxnott : ∀ w2, (x, w2) ∉ t := by
        intro w2 hw2
        rw [List.map_cons, List.nodup_cons, hnb1] at hnodup
        exact hnodup.1 (List.mem_map.mpr ⟨(x, w2), hw2, rfl⟩)
      by_cases hlt : oltb (oadd (d u) w) (d x) = true
      · rw [if_pos hlt, if_pos hlt, if_pos hlt]
        rcases relax_unchanged u U' t (fset d x (oadd (d u) w))
          (fset p x (some u)) x (Or.inr hxnott) with ⟨h1, h2⟩
        exact ⟨h1.trans (fset_self d x _), h2.trans (fset_self p x _)⟩
      · rw [if_neg hlt, if_neg hlt, if_neg hlt]
        exact relax_unchanged u U' t d p x (Or.inr hxnott)
    · have hne : nb.1 ≠ x := by
        intro hpx
        rw [List.map_cons, List.nodup_cons] at hnodup
        exact hnodup.1 (hpx ▸ List.mem_map.mpr ⟨(x, w), hxt, rfl⟩)
      have hnodt : (t.map (fun q => q.1)).Nodup := by
        rw [List.map_cons, List.nodup_cons] at hnodup
        exact hnodup.2
      by_cases hc : U'.contains nb.1 = true
      · rw [if_pos hc]
        by_cases hlt : oltb (oadd (d u) nb.2) (d nb.1) = true
        · rw [if_pos hlt]
          have hnu : nb.1 ≠ u := by
            intro hh
            exact hu (hh ▸ (contains_iff_mem U' nb.1).mp hc)
          rcases ih hnodt (fset d nb.1 (oadd (d u) nb.2))
            (fset p nb.1 (some u)) hxt with ⟨h1, h2⟩
          rw [fset_ne d (fun hh : u = nb.1 => hnu hh.symm) _,
            fset_ne d (Ne.symm hne) _] at h1 h2
          rw [fset_ne p (Ne.symm hne) _] at h2
          exact ⟨h1, h2⟩
        · rw [if_neg hlt]
          exact ih hnodt d p hxt
      · rw [if_neg hc]
        exact ih hnodt d p hxt

theorem ole_of_oltb_true {a b : Option ℚ} (h : oltb a b = true) : ole a b := by
  cases a <;> cases b <;> simp [oltb, ole] at * <;> linarith

theorem ole_of_oltb_false {a b : Option ℚ} (h : oltb a b = false) :
    ole b a := by
  cases a <;> cases b <;> simp [oltb, ole] at * <;> linarith

theorem ole_some_right {a : Option ℚ} {r : ℚ} (h : ole a (some r)) :
    ∃ t, a = some t ∧ t ≤ r := by
  cases a with
  | none => cases h
  | some t => exact ⟨t, rfl, h⟩

theorem oadd_some (m w : ℚ) : oadd (some m) w = some (m + w) := rfl

/-! ## Walk decomposition lemmas -/

theorem walkFrom_head_cons {g : Graph} {s e q : String} {Q : List String}
    (h : WalkFrom g s e (q :: Q)) : q = s := by
  have := h.2.1
  simpa using this

theorem walkFrom_unsnoc {g : Graph} {s y : String} {Q : List String}
    (h : WalkFrom g s y Q) :
    (Q = [s] ∧ y = s) ∨
    ∃ Q1 z w, Q = Q1 ++ [y] ∧ WalkFrom g s z Q1 ∧ adjW g z y = some w ∧
      walkCost g Q = walkCost g Q1 + w := by
  induction Q generalizing s with
  | nil => exact absurd rfl (walkFrom_nonempty h)
  | cons x rest ih =>
    cases rest with
    | nil =>
      rw [walkFrom_singleton] at h
      rcases h with ⟨rfl, rfl⟩
      exact Or.inl ⟨rfl, rfl⟩
    | cons x2 rest' =>
      rw [walkFrom_cons_cons] at h
      rcases h with ⟨rfl, hadj, htail⟩
      rcases Option.isSome_iff_exists.mp hadj with ⟨w0, hw0⟩
      rcases ih htail with ⟨htq, hys⟩ | ⟨Q1, z, w, htq, hwz, hadjz, hcost⟩
      · right
        have hx2 : x2 = x2 := rfl
        have hy : y = x2 := hys ▸ rfl
        refine ⟨[x], x, w0, ?_, walkFrom_self g x, ?_, ?_⟩
        · rw [htq, hy]
          rfl
        · rw [hy]
          exact hw0
        · rw [htq, hy] at *
          rw [walkCost_cons_cons, walkCost_singleton, walkCost_singleton, hw0]
          simp [add_comm]
      · right
        refine ⟨x :: Q1, z, w, ?_, ?_, hadjz, ?_⟩
        · rw [htq]
          rfl
        · cases Q1 with
          | nil => exact absurd rfl (walkFrom_nonempty hwz)
          | cons q Q1' =>
            have hq : q = x2 := walkFrom_head_cons hwz
            rw [hq] at hwz ⊢
            rw [walkFrom_cons_cons]
            exact ⟨rfl, hadj, hwz⟩
        · rw [htq]
          cases Q1 with
          | nil => exact absurd rfl (walkFrom_nonempty hwz)
          | cons q Q1' =>
            rw [htq] at hcost
            rw [List.cons_append] at hcost
            rw [List.cons_append, walkCost_cons_cons, hcost, walkCost_cons_cons]
            ring

theorem walkFrom_split_first {g : Graph} (U : List String) {s v : String}
    {P : List String} (h : WalkFrom g s v P) (hv : v ∈ U) :
    ∃ Q R y, WalkFrom g s y Q ∧ WalkFrom g y v R ∧
      walkCost g P = walkCost g Q + walkCost g R ∧ y ∈ U ∧
      ∀ z ∈ Q.dropLast, z ∉ U := by
  induction P generalizing s with
  | nil => exact absurd rfl (walkFrom_nonempty h)
  | cons x rest ih =>
    cases rest with
    | nil =>
      rw [walkFrom_singleton] at h
      rcases h with ⟨rfl, rfl⟩
      refine ⟨[x], [x], x, walkFrom_self g x, walkFrom_self g x, ?_, hv, ?_⟩
      · rw [walkCost_singleton]
        simp
      · intro z hz
        simp at hz
    | cons x2 rest' =>
      by_cases hxU : x ∈ U
      · have hxs : x = s := walkFrom_head_cons h
        refine ⟨[x], x :: x2 :: rest', x, ?_, ?_, ?_, hxU, ?_⟩
        · rw [walkFrom_singleton]
          exact ⟨hxs, rfl⟩
        · rcases h with ⟨hw, hh, hl⟩
          exact ⟨hw, by simp, hl⟩
        · rw [walkCost_singleton]
          simp
        · intro z hz
          simp at hz
      · rw [walkFrom_cons_cons] at h
        rcases h with ⟨rfl, hadj, htail⟩
        rcases ih htail with ⟨Q', R', y', hq, hr, hc, hyU, hdrop⟩
        cases Q' with
        | nil => exact absurd rfl (walkFrom_nonempty hq)
        | cons q Q'' =>
          have hqx2 : q = x2 := walkFrom_head_cons hq
          subst hqx2
          refine ⟨x :: q :: Q'', R', y', ?_, hr, ?_, hyU, ?_⟩
          · rw [walkFrom_cons_cons]
            exact ⟨rfl, hadj, hq⟩
          · rw [walkCost_cons_cons, walkCost_cons_cons] at *
            rw [hc]
            ring
          · intro z hz
            rw [List.dropLast_cons₂] at hz
            rcases List.mem_cons.mp hz with rfl | hz'
            · exact hxU
            · exact hdrop z hz'

/-! ## The loop invariant -/

/-- Invariant of the main loop (valid for arbitrary edge weights).
`d`/`p`/`U` are the `distances`/`previous`/`unvisited` state, `S` is the
list of settled nodes in the order they were removed from `unvisited`. -/
structure LoopInv (g : Graph) (startNode endNode : String)
    (d : String → Option ℚ) (p : String → Option String)
    (U S : List String) : Prop where
  Usub : ∀ x ∈ U, x ∈ g.map (fun q => q.1)
  Unodup : U.Nodup
  endMem : endNode ∈ U
  settledIff : ∀ x, x ∈ S ↔ (x ∈ g.map (fun q => q.1) ∧ x ∉ U)
  Snodup : S.Nodup
  dStart : d startNode = some 0
  pStart : p startNode = none
  dSettled : ∀ v ∈ S, d v ≠ none
  dKeys : ∀ v, d v ≠ none → v ∈ g.map (fun q => q.1)
  pSettled : ∀ v u, p v = some u → u ∈ S
  pFinite : ∀ v u, p v = some u → d v ≠ none ∧ v ≠ startNode
  pSet : ∀ v, v ≠ startNode → d v ≠ none → p v ≠ none
  achieve : ∀ v x, d v = some x →
    ∃ P, WalkFrom g startNode v P ∧ walkCost g P = x
  closure : ∀ u ∈ S, ∀ v, adjW g u v ≠ none → d v ≠ none
  pWitness : ∀ v x, d v = some x →
    (v = startNode ∧ x = 0) ∨
    (∃ u w du, p v = some u ∧ adjW g u v = some w ∧ d u = some du ∧
      x = du + w)
  pOrder : ∀ i (hi : i < S.length) u, p (S.get ⟨i, hi⟩) = some u →
    u ∈ S.take i
  initState : startNode ∈ U →
    U = g.map (fun q => q.1) ∧ S = [] ∧ p = (fun _ => none) ∧
      d = fset (fun _ => none) startNode (some 0)

/-- Additional invariant fields that hold when all weights are
non-negative; they express that settled distances are globally optimal
and that every settled-to-unvisited edge has been relaxed. -/
structure LoopInvN (g : Graph) (startNode endNode : String)
    (d : String → Option ℚ) (p : String → Option String)
    (U S : List String)
    extends LoopInv g startNode endNode d p U S : Prop where
  settledOpt : ∀ v ∈ S, ∀ x, d v = some x →
    ∀ P, WalkFrom g startNode v P → x ≤ walkCost g P
  relaxed : ∀ z ∈ S, ∀ v ∈ U, ∀ w, adjW g z v = some w →
    ∃ dz dv, d z = some dz ∧ d v = some dv ∧ dv ≤ dz + w

theorem loopInv_init {g : Graph} {startNode endNode : String}
    (hWF : GraphWF g) (hsk : mhas g startNode = true)
    (hek : mhas g endNode = true) :
    LoopInv g startNode endNode (fset (fun _ => none) startNode (some 0))
      (fun _ => none) (g.map (fun q => q.1)) [] := by
  have hdval : ∀ v, fset (fun _ : String => none) startNode
      ((some 0 : Option ℚ)) v ≠ none → v = startNode := by
    intro v hv
    by_cases h : v = startNode
    · exact h
    · rw [fset_ne _ h] at hv
      exact absurd rfl hv
  refine ⟨?_, hWF.nodupKeys, ?_, ?_, List.nodup_nil, fset_self _ _ _, rfl,
    ?_, ?_, ?_, ?_, ?_, ?_, ?_, ?_, ?_, ?_⟩
  · intro x hx
    exact hx
  · exact (mhas_iff_mem_keys g endNode).mp hek
  · intro x
    simp
  · intro v hv
    cases hv
  · intro v hv
    rw [hdval v hv]
    exact (mhas_iff_mem_keys g startNode).mp hsk
  · intro v u hv
    cases hv
  · intro v u hv
    cases hv
  · intro v hne hv
    exact absurd (hdval v hv) hne
  · intro v x hv
    have hvs := hdval v (by rw [hv]; exact fun h => Option.noConfusion h)
    subst hvs
    rw [fset_self] at hv
    refine ⟨[v], walkFrom_self g v, ?_⟩
    rw [walkCost_singleton]
    exact Option.some.inj hv
  · intro u hu
    cases hu
  · intro v x hv
    have hvs := hdval v (by rw [hv]; exact fun h => Option.noConfusion h)
    subst hvs
    rw [fset_self] at hv
    exact Or.inl ⟨rfl, (Option.some.inj hv).symm⟩
  · intro i hi
    cases hi
  · intro _
    exact ⟨rfl, rfl, rfl, rfl⟩

theorem loopInvN_init {g : Graph} {startNode endNode : String}
    (hWF : GraphWF g) (hsk : mhas g startNode = true)
    (hek : mhas g endNode = true) :
    LoopInvN g startNode endNode (fset (fun _ => none) startNode (some 0))
      (fun _ => none) (g.map (fun q => q.1)) [] := by
  refine ⟨loopInv_init hWF hsk hek, ?_, ?_⟩
  · intro v hv
    cases hv
  · intro z hz
    cases hz

/-! ## Preservation of the loop invariant by one loop iteration -/

theorem loopInv_scan_eq {g : Graph} {startNode endNode : String}
    {d : String → Option ℚ} {p : String → Option String}
    {U S : List String} {u : String} {m : ℚ}
    (inv : LoopInv g startNode endNode d p U S)
    (hscan : scanMin d U = (some u, some m)) :
    u ∈ U ∧ d u = some m ∧ ∀ y ∈ U, oltb (d y) (some m) = false := by
  rcases scanMin_spec d U with ⟨hs, _⟩ | ⟨u2, m2, hs, hu2, hd2, hmin2⟩
  · rw [hscan] at hs
    cases hs
  · have heq := hs.symm.trans hscan
    rw [Prod.mk.injEq] at heq
    obtain ⟨hequ, heqm⟩ := heq
    obtain rfl := Option.some.inj hequ
    obtain rfl := Option.some.inj heqm
    exact ⟨hu2, hd2, hmin2⟩

theorem loopInv_selected_start {g : Graph} {startNode endNode : String}
    {d : String → Option ℚ} {p : String → Option String}
    {U S : List String} {u : String} {m : ℚ}
    (inv : LoopInv g startNode endNode d p U S)
    (hdu : d u = some m) :
    startNode ∉ U.erase u := by
  by_cases hsU : startNode ∈ U
  · obtain ⟨hUkeys, hSnil, hpnil, hdinit⟩ := inv.initState hsU
    have hus : u = startNode := by
      by_contra hus
      rw [hdinit, fset_ne _ hus] at hdu
      cases hdu
    rw [hus]
    intro hmem
    exact ((inv.Unodup.mem_erase_iff).mp hmem).1 rfl
  · intro hmem
    exact hsU (List.erase_subset _ _ hmem)

theorem loopInv_preserve {g : Graph} {startNode endNode : String}
    (hWF : GraphWF g) {d : String → Option ℚ} {p : String → Option String}
    {U S : List String} {u : String} {m : ℚ}
    (inv : LoopInv g startNode endNode d p U S)
    (hscan : scanMin d U = (some u, some m))
    (hne : u ≠ endNode) :
    LoopInv g startNode endNode
      (relaxNeighbors u (U.erase u) ((mget g u).getD []) (d, p)).1
      (relaxNeighbors u (U.erase u) ((mget g u).getD []) (d, p)).2
      (U.erase u) (S ++ [u]) := by
  obtain ⟨huU, hdu, hmin⟩ := loopInv_scan_eq inv hscan
  have hstartU' : startNode ∉ U.erase u := loopInv_selected_start inv hdu
  have hnods : (((mget g u).getD []).map (fun q => q.1)).Nodup := by
    rcases hg : mget g u with _ | nbrs
    · simp
    · simpa using hWF.adjNodup u nbrs hg
  have huU' : u ∉ U.erase u := by
    intro hmem
    exact ((inv.Unodup.mem_erase_iff).mp hmem).1 rfl
  have hmemadj : ∀ x w, ((x, w) ∈ (mget g u).getD []) ↔
      adjW g u x = some w := by
    intro x w
    rw [← mget_getD_eq_adjW, mget_eq_some_iff_mem hnods]
  have huS : u ∉ S := by
    intro hmem
    exact ((inv.settledIff u).mp hmem).2 huU
  have hfrozen : ∀ x, x ∉ U.erase u →
      (relaxNeighbors u (U.erase u) ((mget g u).getD []) (d, p)).1 x = d x ∧
      (relaxNeighbors u (U.erase u) ((mget g u).getD []) (d, p)).2 x = p x :=
    fun x hx => relax_unchanged u (U.erase u) _ d p x (Or.inl hx)
  have hchar : ∀ x,
      ((relaxNeighbors u (U.erase u) ((mget g u).getD []) (d, p)).1 x = d x ∧
       (relaxNeighbors u (U.erase u) ((mget g u).getD []) (d, p)).2 x = p x) ∨
      (x ∈ U.erase u ∧ ∃ w, adjW g u x = some w ∧
        oltb (some (m + w)) (d x) = true ∧
        (relaxNeighbors u (U.erase u) ((mget g u).getD []) (d, p)).1 x
          = some (m + w) ∧
        (relaxNeighbors u (U.erase u) ((mget g u).getD []) (d, p)).2 x
          = some u) := by
    intro x
    by_cases hxU : x ∈ U.erase u
    · rcases Classical.em (∃ w, (x, w) ∈ (mget g u).getD []) with ⟨w, hw⟩ | hno
      · rcases relax_update hnods huU' d p hxU hw with ⟨h1, h2⟩
        rw [hdu, oadd_some] at h1 h2
        by_cases hlt : oltb (some (m + w)) (d x) = true
        · right
          exact ⟨hxU, w, (hmemadj x w).mp hw, hlt,
            by rw [h1, if_pos hlt], by rw [h2, if_pos hlt]⟩
        · left
          rw [h1, h2, if_neg hlt, if_neg hlt]
          exact ⟨rfl, rfl⟩
      · left
        exact relax_unchanged u (U.erase u) _ d p x
          (Or.inr (fun w hw => hno ⟨w, hw⟩))
    · left
      exact hfrozen x hxU
  have hmono : ∀ x,
      ole ((relaxNeighbors u (U.erase u) ((mget g u).getD []) (d, p)).1 x)
        (d x) := by
    intro x
    rcases hchar x with ⟨h1, _⟩ | ⟨_, w, _, hlt, h1, _⟩
    · rw [h1]
      exact ole_refl _
    · rw [h1]
      exact ole_of_oltb_true hlt
  have hsome : ∀ x r, d x = some r →
      ∃ r2, (relaxNeighbors u (U.erase u) ((mget g u).getD []) (d, p)).1 x
        = some r2 ∧ r2 ≤ r := by
    intro x r hx
    have := hmono x
    rw [hx] at this
    exact ole_some_right this
  have hbound : ∀ x ∈ U.erase u, ∀ w, adjW g u x = some w →
      ole ((relaxNeighbors u (U.erase u) ((mget g u).getD []) (d, p)).1 x)
        (some (m + w)) := by
    intro x hxU w hadj
    rcases relax_update hnods huU' d p hxU ((hmemadj x w).mpr hadj) with ⟨h1, _⟩
    rw [hdu, oadd_some] at h1
    by_cases hlt : oltb (some (m + w)) (d x) = true
    · rw [h1, if_pos hlt]
      exact ole_refl _
    · rw [h1, if_neg hlt]
      exact ole_of_oltb_false (Bool.eq_false_iff.mpr hlt)
  have hd'u : (relaxNeighbors u (U.erase u) ((mget g u).getD []) (d, p)).1 u
      = some m := ((hfrozen u huU').1).trans hdu
  have hSU' : ∀ x ∈ S, x ∉ U.erase u := by
    intro x hx hmem
    exact ((inv.settledIff x).mp hx).2 (List.erase_subset _ _ hmem)
  have hSfrozen : ∀ x ∈ S,
      (relaxNeighbors u (U.erase u) ((mget g u).getD []) (d, p)).1 x = d x ∧
      (relaxNeighbors u (U.erase u) ((mget g u).getD []) (d, p)).2 x = p x :=
    fun x hx => hfrozen x (hSU' x hx)
  refine ⟨?_, inv.Unodup.erase u, ?_, ?_, ?_, ?_, ?_, ?_, ?_, ?_, ?_, ?_,
    ?_, ?_, ?_, ?_, ?_⟩
  · intro x hx
    exact inv.Usub x (List.erase_subset _ _ hx)
  · exact (List.mem_erase_of_ne (fun h => hne h.symm)).mpr inv.endMem
  · intro x
    rw [List.mem_append, List.mem_singleton]
    constructor
    · rintro (hxS | rfl)
      · exact ⟨((inv.settledIff x).mp hxS).1, hSU' x hxS⟩
      · exact ⟨inv.Usub x huU, huU'⟩
    · rintro ⟨hk, hnU'⟩
      by_cases hxU : x ∈ U
      · right
        by_contra hxu
        exact hnU' ((List.mem_erase_of_ne hxu).mpr hxU)
      · exact Or.inl ((inv.settledIff x).mpr ⟨hk, hxU⟩)
  · rw [List.nodup_append]
    refine ⟨inv.Snodup, List.nodup_singleton u, ?_⟩
    intro a ha hb
    rw [List.mem_singleton] at hb
    subst hb
    exact huS ha
  · exact ((hfrozen startNode hstartU').1).trans inv.dStart
  · exact ((hfrozen startNode hstartU').2).trans inv.pStart
  · intro v hv
    rw [List.mem_append, List.mem_singleton] at hv
    rcases hv with hvS | rfl
    · rw [(hSfrozen v hvS).1]
      exact inv.dSettled v hvS
    · rw [hd'u]
      exact fun h => Option.noConfusion h
  · intro v hv
    rcases hchar v with ⟨h1, _⟩ | ⟨hvU, _⟩
    · rw [h1] at hv
      exact inv.dKeys v hv
    · exact inv.Usub v (List.erase_subset _ _ hvU)
  · intro v u0 hv
    rcases hchar v with ⟨_, h2⟩ | ⟨_, w, _, _, _, h2⟩
    · rw [h2] at hv
      exact List.mem_append_left _ (inv.pSettled v u0 hv)
    · rw [h2] at hv
      obtain rfl := Option.some.inj hv
      exact List.mem_append_right _ (List.mem_singleton.mpr rfl)
  · intro v u0 hv
    rcases hchar v with ⟨h1, h2⟩ | ⟨hvU, w, _, _, h1, h2⟩
    · rw [h2] at hv
      rcases inv.pFinite v u0 hv with ⟨hd, hs⟩
      rw [h1]
      exact ⟨hd, hs⟩
    · rw [h1]
      refine ⟨fun h => Option.noConfusion h, ?_⟩
      intro hvs
      rw [hvs] at hvU
      exact hstartU' hvU
  · intro v hvs hv
    rcases hchar v with ⟨h1, h2⟩ | ⟨_, w, _, _, _, h2⟩
    · rw [h1] at hv
      rw [h2]
      exact inv.pSet v hvs hv
    · rw [h2]
      exact fun h => Option.noConfusion h
  · intro v x hv
    rcases hchar v with ⟨h1, _⟩ | ⟨_, w, hadj, _, h1, _⟩
    · rw [h1] at hv
      exact inv.achieve v x hv
    · rw [h1] at hv
      obtain rfl := Option.some.inj hv
      rcases inv.achieve u m hdu with ⟨P, hP, hPc⟩
      rcases walkFrom_snoc hP hadj with ⟨hPv, hPvc⟩
      exact ⟨P ++ [v], hPv, by rw [hPvc, hPc]⟩
  · intro u0 hu0 v hadj
    rw [List.mem_append, List.mem_singleton] at hu0
    rcases hu0 with hu0S | hequ
    case inr =>
      subst hequ
      rcases Option.ne_none_iff_exists.mp hadj with ⟨w, hw⟩
      by_cases hvU : v ∈ U.erase u0
      · have hbv := hbound v hvU w hw.symm
        intro hnone
        rw [hnone] at hbv
        exact hbv
      · have hvk : v ∈ g.map (fun q => q.1) := by
          have hth := hWF.targetsHaveKeys u0 v hadj
          exact (mhas_iff_mem_keys g v).mp hth.2
        by_cases hvS : v ∈ S
        · rw [(hSfrozen v hvS).1]
          exact inv.dSettled v hvS
        · by_cases hvu : v = u0
          · rw [hvu, hd'u]
            exact fun h => Option.noConfusion h
          · exfalso
            have hvU0 : v ∈ U := by
              by_contra hvU0
              exact hvS ((inv.settledIff v).mpr ⟨hvk, hvU0⟩)
            exact hvU ((List.mem_erase_of_ne hvu).mpr hvU0)
    · have hdv := inv.closure u0 hu0S v hadj
      rcases hd : d v with _ | r
      · exact absurd hd hdv
      · rcases hsome v r hd with ⟨r2, h2, _⟩
        rw [h2]
        exact fun h => Option.noConfusion h
  · intro v x hv
    rcases hchar v with ⟨h1, h2⟩ | ⟨hvU, w, hadj, _, h1, h2⟩
    · rw [h1] at hv
      rcases inv.pWitness v x hv with ⟨hvs, hx0⟩ | ⟨u0, w0, du0, hp, hadj0, hdu0, hx⟩
      · exact Or.inl ⟨hvs, hx0⟩
      · right
        refine ⟨u0, w0, du0, by rw [h2]; exact hp, hadj0, ?_, hx⟩
        have hu0S : u0 ∈ S := inv.pSettled v u0 hp
        exact ((hSfrozen u0 hu0S).1).trans hdu0
    · rw [h1] at hv
      obtain rfl := Option.some.inj hv
      exact Or.inr ⟨u, w, m, h2, hadj, hd'u, rfl⟩
  · intro i hi u0 hp0
    rw [List.length_append, List.length_singleton] at hi
    by_cases hiS : i < S.length
    · have hget : (S ++ [u]).get ⟨i, hi.trans_eq (by simp)⟩
          = S.get ⟨i, hiS⟩ := by
        rw [List.get_eq_getElem, List.get_eq_getElem]
        exact List.getElem_append_left hiS
      rw [hget] at hp0
      have hvS : S.get ⟨i, hiS⟩ ∈ S := S.get_mem _ _
      rw [(hSfrozen _ hvS).2] at hp0
      have hres := inv.pOrder i hiS u0 hp0
      have htake : (S ++ [u]).take i = S.take i :=
        List.take_append_of_le_length (le_of_lt hiS)
      rw [htake]
      exact hres
    · have hieq : i = S.length := by omega
      have hget : (S ++ [u]).get ⟨i, hi.trans_eq (by simp)⟩ = u := by
        rw [List.get_eq_getElem]
        exact List.getElem_concat_length S u i hieq _
      rw [hget] at hp0
      rw [(hfrozen u huU').2] at hp0
      have hu0S : u0 ∈ S := inv.pSettled u u0 hp0
      subst hieq
      rw [List.take_append_of_le_length (le_refl _)]
      rw [List.take_length]
      exact hu0S
  · intro hstart
    exact absurd hstart hstartU'

theorem mem_of_getLast?_eq_some {l : List String} {a : String}
    (h : l.getLast? = some a) : a ∈ l := by
  have hx : a ∈ l.getLast? := by
    rw [Option.mem_def]
    exact h
  rcases List.mem_getLast?_eq_getLast hx with ⟨hne, heq⟩
  rw [heq]
  exact List.getLast_mem hne

/-- The greedy argument: if `v` is an unvisited node whose tentative
distance `m` is minimal over the unvisited set, then `m` is a lower bound
on the cost of every walk from the start to `v` (non-negative weights). -/
theorem greedy_bound {g : Graph} {startNode endNode : String}
    (hWF : GraphWF g)
    (hnn : ∀ u v w, adjW g u v = some w → 0 ≤ w)
    {d : String → Option ℚ} {p : String → Option String} {U S : List String}
    (inv : LoopInvN g startNode endNode d p U S)
    {v : String} {m : ℚ} (hvU : v ∈ U) (hdv : d v = some m)
    (hmin : ∀ y ∈ U, oltb (d y) (some m) = false) :
    ∀ P, WalkFrom g startNode v P → m ≤ walkCost g P := by
  intro P hP
  by_cases hsU : startNode ∈ U
  · obtain ⟨hUkeys, hSnil, hpnil, hdinit⟩ := inv.initState hsU
    have hvstart : v = startNode := by
      by_contra hv
      rw [hdinit, fset_ne _ hv] at hdv
      cases hdv
    have hm0 : m = 0 := by
      subst hvstart
      rw [hdinit, fset_self] at hdv
      exact (Option.some.inj hdv).symm
    rw [hm0]
    exact walkCost_nonneg hnn hP.1
  · rcases walkFrom_split_first U hP hvU with ⟨Q, R, y, hQ, hR, hc, hyU, hdrop⟩
    have hfront : ∃ t, d y = some t ∧ t ≤ walkCost g Q := by
      rcases walkFrom_unsnoc hQ with ⟨hQs, hys⟩ | ⟨Q1, z, w, hQeq, hQ1, hadj, hcost⟩
      · refine ⟨0, ?_, ?_⟩
        · rw [hys]
          exact inv.dStart
        · rw [hQs, walkCost_singleton]
      · have hzQdrop : z ∈ Q.dropLast := by
          rw [hQeq, List.dropLast_concat]
          exact mem_of_getLast?_eq_some hQ1.2.2
        have hzU : z ∉ U := hdrop z hzQdrop
        have hzk : z ∈ g.map (fun q => q.1) := by
          have hth := hWF.targetsHaveKeys z y (by rw [hadj]; exact fun h => Option.noConfusion h)
          exact (mhas_iff_mem_keys g z).mp hth.1
        have hzS : z ∈ S := (inv.settledIff z).mpr ⟨hzk, hzU⟩
        rcases Option.ne_none_iff_exists.mp (inv.dSettled z hzS) with ⟨dz, hdz⟩
        have hopt : dz ≤ walkCost g Q1 :=
          inv.settledOpt z hzS dz hdz.symm Q1 hQ1
        obtain ⟨dz2, dv2, hdz2, hdy, hle⟩ := inv.relaxed z hzS y hyU w hadj
        have hzz : dz2 = dz := (Option.some.inj (hdz.trans hdz2)).symm
        refine ⟨dv2, hdy, ?_⟩
        rw [hcost]
        rw [hzz] at hle
        linarith
    obtain ⟨t, hdy, htc⟩ := hfront
    have hmt : m ≤ t := by
      have hmy := hmin y hyU
      rw [hdy, oltb_some_some, decide_eq_false_iff_not] at hmy
      linarith
    have hR0 : 0 ≤ walkCost g R := walkCost_nonneg hnn hR.1
    rw [hc]
    linarith

theorem loopInvN_preserve {g : Graph} {startNode endNode : String}
    (hWF : GraphWF g)
    (hnn : ∀ u v w, adjW g u v = some w → 0 ≤ w)
    {d : String → Option ℚ} {p : String → Option String}
    {U S : List String} {u : String} {m : ℚ}
    (inv : LoopInvN g startNode endNode d p U S)
    (hscan : scanMin d U = (some u, some m))
    (hne : u ≠ endNode) :
    LoopInvN g startNode endNode
      (relaxNeighbors u (U.erase u) ((mget g u).getD []) (d, p)).1
      (relaxNeighbors u (U.erase u) ((mget g u).getD []) (d, p)).2
      (U.erase u) (S ++ [u]) := by
  obtain ⟨huU, hdu, hmin⟩ := loopInv_scan_eq inv.toLoopInv hscan
  have hnods : (((mget g u).getD []).map (fun q => q.1)).Nodup := by
    rcases hg : mget g u with _ | nbrs
    · simp
    · simpa using hWF.adjNodup u nbrs hg
  have huU' : u ∉ U.erase u := by
    intro hmem
    exact ((inv.Unodup.mem_erase_iff).mp hmem).1 rfl
  have hmemadj : ∀ x w, ((x, w) ∈ (mget g u).getD []) ↔
      adjW g u x = some w := by
    intro x w
    rw [← mget_getD_eq_adjW, mget_eq_some_iff_mem hnods]
  have hfrozen : ∀ x, x ∉ U.erase u →
      (relaxNeighbors u (U.erase u) ((mget g u).getD []) (d, p)).1 x = d x ∧
      (relaxNeighbors u (U.erase u) ((mget g u).getD []) (d, p)).2 x = p x :=
    fun x hx => relax_unchanged u (U.erase u) _ d p x (Or.inl hx)
  have hSU' : ∀ x ∈ S, x ∉ U.erase u := by
    intro x hx hmem
    exact ((inv.settledIff x).mp hx).2 (List.erase_subset _ _ hmem)
  have hd'u : (relaxNeighbors u (U.erase u) ((mget g u).getD []) (d, p)).1 u
      = some m := ((hfrozen u huU').1).trans hdu
  have hsome : ∀ x r, d x = some r →
      ∃ r2, (relaxNeighbors u (U.erase u) ((mget g u).getD []) (d, p)).1 x
        = some r2 ∧ r2 ≤ r := by
    intro x r hx
    by_cases hxU : x ∈ U.erase u
    · rcases Classical.em (∃ w, (x, w) ∈ (mget g u).getD []) with ⟨w, hw⟩ | hno
      · rcases relax_update hnods huU' d p hxU hw with ⟨h1, _⟩
        rw [hdu, oadd_some] at h1
        by_cases hlt : oltb (some (m + w)) (d x) = true
        · rw [h1, if_pos hlt]
          rw [hx, oltb_some_some, decide_eq_true_eq] at hlt
          exact ⟨m + w, rfl, le_of_lt hlt⟩
        · rw [h1, if_neg hlt]
          exact ⟨r, hx, le_refl r⟩
      · rcases relax_unchanged u (U.erase u) _ d p x
          (Or.inr (fun w hw => hno ⟨w, hw⟩)) with ⟨h1, _⟩
        rw [h1]
        exact ⟨r, hx, le_refl r⟩
    · rw [(hfrozen x hxU).1]
      exact ⟨r, hx, le_refl r⟩
  have hbound : ∀ x ∈ U.erase u, ∀ w, adjW g u x = some w →
      ole ((relaxNeighbors u (U.erase u) ((mget g u).getD []) (d, p)).1 x)
        (some (m + w)) := by
    intro x hxU w hadj
    rcases relax_update hnods huU' d p hxU ((hmemadj x w).mpr hadj) with ⟨h1, _⟩
    rw [hdu, oadd_some] at h1
    by_cases hlt : oltb (some (m + w)) (d x) = true
    · rw [h1, if_pos hlt]
      exact ole_refl _
    · rw [h1, if_neg hlt]
      exact ole_of_oltb_false (Bool.eq_false_iff.mpr hlt)
  refine ⟨loopInv_preserve hWF inv.toLoopInv hscan hne, ?_, ?_⟩
  · intro v hv x hdvx P hP
    rw [List.mem_append, List.mem_singleton] at hv
    rcases hv with hvS | hequ
    · rw [(hfrozen v (hSU' v hvS)).1] at hdvx
      exact inv.settledOpt v hvS x hdvx P hP
    · subst hequ
      rw [hd'u] at hdvx
      obtain rfl := Option.some.inj hdvx.symm
      exact greedy_bound hWF hnn inv huU hdu hmin P hP
  · intro z hz v hvU' w hadj
    rw [List.mem_append, List.mem_singleton] at hz
    rcases hz with hzS | hequ
    · obtain ⟨dz, dv, hdz, hdv, hle⟩ :=
        inv.relaxed z hzS v (List.erase_subset _ _ hvU') w hadj
      rcases hsome v dv hdv with ⟨dv2, hdv2, hdvle⟩
      refine ⟨dz, dv2, ?_, hdv2, by linarith⟩
      rw [(hfrozen z (hSU' z hzS)).1]
      exact hdz
    · subst hequ
      have hb := hbound v hvU' w hadj
      rcases ole_some_right hb with ⟨dv2, hdv2, hdvle⟩
      exact ⟨m, dv2, hd'u, hdv2, hdvle⟩

/-! ## The master induction over the main loop -/

theorem dijkstraLoop_succ (g : Graph) (endNode : String) (fuel : Nat)
    (d : String → Option ℚ) (p : String → Option String) (U : List String) :
    dijkstraLoop g endNode (fuel + 1) (d, p) U =
      if U.isEmpty then (d, p)
      else
        match scanMin d U with
        | (some currentNode, some _) =>
          if currentNode = endNode then (d, p)
          else
            dijkstraLoop g endNode fuel
              (relaxNeighbors currentNode (U.erase currentNode)
                ((mget g currentNode).getD []) (d, p)) (U.erase currentNode)
        | _ => (d, p) := rfl

theorem dijkstraLoop_master (g : Graph) (endNode : String)
    (Inv : (String → Option ℚ) → (String → Option String) → List String → Prop)
    (hpres : ∀ d p U u m, Inv d p U → scanMin d U = (some u, some m) →
      u ≠ endNode → u ∈ U →
      Inv (relaxNeighbors u (U.erase u) ((mget g u).getD []) (d, p)).1
          (relaxNeighbors u (U.erase u) ((mget g u).getD []) (d, p)).2
          (U.erase u)) :
    ∀ (fuel : Nat) (d : String → Option ℚ) (p : String → Option String)
      (U : List String),
      Inv d p U → U.length ≤ fuel → endNode ∈ U →
      ∃ U2, endNode ∈ U2 ∧
        Inv (dijkstraLoop g endNode fuel (d, p) U).1
            (dijkstraLoop g endNode fuel (d, p) U).2 U2 ∧
        ((∃ m2, (dijkstraLoop g endNode fuel (d, p) U).1 endNode = some m2 ∧
            ∀ y ∈ U2,
              oltb ((dijkstraLoop g endNode fuel (d, p) U).1 y) (some m2)
                = false) ∨
          (∀ y ∈ U2, (dijkstraLoop g endNode fuel (d, p) U).1 y = none)) := by
  intro fuel
  induction fuel with
  | zero =>
    intro d p U hInv hlen hend
    have hU : U = [] := List.eq_nil_of_length_eq_zero (Nat.le_zero.mp hlen)
    rw [hU] at hend
    cases hend
  | succ fuel ih =>
    intro d p U hInv hlen hend
    have hUne : U ≠ [] := List.ne_nil_of_mem hend
    rw [dijkstraLoop_succ, if_neg (fun h => hUne (List.isEmpty_iff.mp h))]
    rcases scanMin_spec d U with ⟨hs, hall⟩ | ⟨u, m, hs, hu, hd, hmin⟩
    · rw [hs]
      exact ⟨U, hend, hInv, Or.inr hall⟩
    · rw [hs]
      dsimp only
      by_cases hue : u = endNode
      · rw [if_pos hue]
        subst hue
        refine ⟨U, hend, hInv, Or.inl ⟨m, hd, ?_⟩⟩
        intro y hy
        exact hmin y hy
      · rw [if_neg hue]
        have hInv' := hpres d p U u m hInv hs hue hu
        have hlen' : (U.erase u).length ≤ fuel := by
          rw [List.length_erase_of_mem hu]
          have hpos : 0 < U.length := List.length_pos.mpr hUne
          omega
        have hend' : endNode ∈ U.erase u :=
          (List.mem_erase_of_ne (fun h => hue h.symm)).mpr hend
        have hres := ih
          (relaxNeighbors u (U.erase u) ((mget g u).getD []) (d, p)).1
          (relaxNeighbors u (U.erase u) ((mget g u).getD []) (d, p)).2
          (U.erase u) hInv' hlen' hend'
        rw [Prod.mk.eta] at hres
        exact hres

/-! ## Fuel stability of the main loop -/

theorem dijkstraLoop_fuel_stable (g : Graph) (endNode : String) :
    ∀ (fuel : Nat) (d : String → Option ℚ) (p : String → Option String)
      (U : List String), U.length ≤ fuel →
      dijkstraLoop g endNode fuel (d, p) U =
        dijkstraLoop g endNode U.length (d, p) U := by
  intro fuel
  induction fuel with
  | zero =>
    intro d p U hlen
    rw [List.eq_nil_of_length_eq_zero (Nat.le_zero.mp hlen)]
    rfl
  | succ fuel ih =>
    intro d p U hlen
    by_cases hU : U = []
    · subst hU
      rfl
    · have hpos : 0 < U.length := List.length_pos.mpr hU
      have hsplit : U.length = (U.length - 1) + 1 := by omega
      rw [dijkstraLoop_succ, hsplit, dijkstraLoop_succ]
      rw [if_neg (fun h => hU (List.isEmpty_iff.mp h)),
        if_neg (fun h => hU (List.isEmpty_iff.mp h))]
      rcases scanMin_spec d U with ⟨hs, _⟩ | ⟨u, m, hs, hu, _, _⟩
      · rw [hs]
      · rw [hs]
        dsimp only
        by_cases hue : u = endNode
        · rw [if_pos hue, if_pos hue]
        · rw [if_neg hue, if_neg hue]
          have hlen' : (U.erase u).length = U.length - 1 :=
            List.length_erase_of_mem hu
          rcases hrel : relaxNeighbors u (U.erase u) ((mget g u).getD [])
            (d, p) with ⟨d2, p2⟩
          have hstep1 : dijkstraLoop g endNode fuel (d2, p2) (U.erase u) =
              dijkstraLoop g endNode (U.erase u).length (d2, p2)
                (U.erase u) := by
            apply ih
            omega
          rw [hstep1, hlen']

/-! ## Stability and termination of the reconstruction loop -/

theorem reconstructPath_none (previous : String → Option String) :
    ∀ (f : Nat) (acc : List String),
      reconstructPath previous f none acc = acc := by
  intro f acc
  cases f with
  | zero => rfl
  | succ f => rfl

theorem stepChain_iterate_none (previous : String → Option String) :
    ∀ k, (stepChain previous)^[k] none = none := by
  intro k
  induction k with
  | zero => rfl
  | succ k ihk =>
    rw [Function.iterate_succ_apply]
    exact ihk

theorem chainDies_mono {previous : String → Option String} {m m2 : Nat}
    {c : Option String} (h : ChainDies previous m c) (hm : m ≤ m2) :
    ChainDies previous m2 c := by
  rw [ChainDies, show m2 = (m2 - m) + m from by omega,
    Function.iterate_add_apply]
  rw [ChainDies] at h
  rw [h]
  exact stepChain_iterate_none previous (m2 - m)

theorem reconstructPath_stable (previous : String → Option String) :
    ∀ (m : Nat) (c : Option String) (acc : List String) (f : Nat),
      ChainDies previous m c → m ≤ f →
      reconstructPath previous f c acc =
        reconstructPath previous m c acc := by
  intro m
  induction m with
  | zero =>
    intro c acc f hdies _
    rw [ChainDies, Function.iterate_zero_apply] at hdies
    subst hdies
    rw [reconstructPath_none, reconstructPath_none]
  | succ m ihm =>
    intro c acc f hdies hmf
    cases c with
    | none => rw [reconstructPath_none, reconstructPath_none]
    | some c0 =>
      rcases Nat.exists_eq_add_of_le hmf with ⟨k, hk⟩
      subst hk
      rw [show m + 1 + k = (m + k) + 1 from by omega]
      show reconstructPath previous ((m + k) + 1) (some c0) acc =
        reconstructPath previous (m + 1) (some c0) acc
      rw [ChainDies, Function.iterate_succ_apply] at hdies
      have hdies' : ChainDies previous m
          (jsOrNull (previous c0)) := hdies
      calc reconstructPath previous ((m + k) + 1) (some c0) acc
          = reconstructPath previous (m + k) (jsOrNull (previous c0))
              (c0 :: acc) := rfl
        _ = reconstructPath previous m (jsOrNull (previous c0))
              (c0 :: acc) := ihm _ _ _ hdies' (by omega)
        _ = reconstructPath previous (m + 1) (some c0) acc := rfl

theorem jsOrNull_eq_some {o : Option String} {w : String}
    (h : jsOrNull o = some w) : o = some w := by
  cases o with
  | none => cases h
  | some v =>
    rw [jsOrNull] at h
    by_cases hv : v = ""
    · rw [if_pos hv] at h
      cases h
    · rw [if_neg hv] at h
      rw [h]

theorem chainDies_take {g : Graph} {startNode endNode : String}
    {d : String → Option ℚ} {p : String → Option String} {U S : List String}
    (inv : LoopInv g startNode endNode d p U S) :
    ∀ i, i ≤ S.length → ∀ v ∈ S.take i, ChainDies p i (some v) := by
  intro i
  induction i with
  | zero =>
    intro _ v hv
    simp at hv
  | succ i ihi =>
    intro hi v hv
    rcases List.mem_iff_get.mp hv with ⟨⟨j, hj⟩, hgetv⟩
    have hjS : j < S.length := by
      have := hj
      rw [List.length_take] at this
      omega
    have hji : j ≤ i := by
      have := hj
      rw [List.length_take] at this
      omega
    have hveq : S.get ⟨j, hjS⟩ = v := by
      rw [← hgetv, List.get_eq_getElem, List.get_eq_getElem,
        List.getElem_take]
    rw [ChainDies, Function.iterate_succ_apply]
    rcases hnext : stepChain p (some v) with _ | u0
    · rw [stepChain_iterate_none]
    · have hpu0 : p v = some u0 := jsOrNull_eq_some hnext
      have hu0 : u0 ∈ S.take j := by
        have := inv.pOrder j hjS u0 (by rw [hveq]; exact hpu0)
        exact this
      have hu0i : u0 ∈ S.take i := by
        have hsub : S.take j ⊆ S.take i := by
          intro x hx
          have hp2 := (List.take_prefix j (S.take i)).subset
          rw [List.take_take, min_eq_left hji] at hp2
          exact hp2 hx
        exact hsub hu0
      exact ihi (by omega) u0 hu0i

theorem chainDies_endNode {g : Graph} {startNode endNode : String}
    {d : String → Option ℚ} {p : String → Option String} {U S : List String}
    (inv : LoopInv g startNode endNode d p U S) :
    ChainDies p (S.length + 1) (some endNode) := by
  rw [ChainDies, Function.iterate_succ_apply]
  rcases hnext : stepChain p (some endNode) with _ | u0
  · rw [stepChain_iterate_none]
  · have hpu0 : p endNode = some u0 := jsOrNull_eq_some hnext
    have hu0 : u0 ∈ S := inv.pSettled endNode u0 hpu0
    exact chainDies_take inv S.length (le_refl _) u0
      (by rw [List.take_length]; exact hu0)

/-! ## Post-conditions of the search loop at the top level -/

theorem loop_post_exists {edges : List GraphEdge} {s e : String}
    (hsk : mhas (buildGraph edges) s = true)
    (hek : mhas (buildGraph edges) e = true) (k : Nat) :
    ∃ U2 S2, e ∈ U2 ∧
      LoopInv (buildGraph edges) s e
        (dijkstraLoop (buildGraph edges) e
          (((buildGraph edges).map (fun q => q.1)).length + k)
          (fset (fun _ => none) s (some 0), fun _ => none)
          ((buildGraph edges).map (fun q => q.1))).1
        (dijkstraLoop (buildGraph edges) e
          (((buildGraph edges).map (fun q => q.1)).length + k)
          (fset (fun _ => none) s (some 0), fun _ => none)
          ((buildGraph edges).map (fun q => q.1))).2 U2 S2 ∧
      ((∃ m2, (dijkstraLoop (buildGraph edges) e
          (((buildGraph edges).map (fun q => q.1)).length + k)
          (fset (fun _ => none) s (some 0), fun _ => none)
          ((buildGraph edges).map (fun q => q.1))).1 e = some m2 ∧
          ∀ y ∈ U2, oltb ((dijkstraLoop (buildGraph edges) e
            (((buildGraph edges).map (fun q => q.1)).length + k)
            (fset (fun _ => none) s (some 0), fun _ => none)
            ((buildGraph edges).map (fun q => q.1))).1 y) (some m2) = false) ∨
        (∀ y ∈ U2, (dijkstraLoop (buildGraph edges) e
          (((buildGraph edges).map (fun q => q.1)).length + k)
          (fset (fun _ => none) s (some 0), fun _ => none)
          ((buildGraph edges).map (fun q => q.1))).1 y = none)) := by
  have hWF := graphWF_buildGraph edges
  have hres := dijkstraLoop_master (buildGraph edges) e
    (fun d p U => ∃ S, LoopInv (buildGraph edges) s e d p U S)
    (by
      rintro d p U u m ⟨S, hInv⟩ hscan hne _
      exact ⟨S ++ [u], loopInv_preserve hWF hInv hscan hne⟩)
    (((buildGraph edges).map (fun q => q.1)).length + k)
    (fset (fun _ => none) s (some 0)) (fun _ => none)
    ((buildGraph edges).map (fun q => q.1))
    ⟨[], loopInv_init hWF hsk hek⟩ (by omega)
    ((mhas_iff_mem_keys _ e).mp hek)
  rcases hres with ⟨U2, hend2, ⟨S2, hinv⟩, hexit⟩
  exact ⟨U2, S2, hend2, hinv, hexit⟩

theorem loop_post_existsN {edges : List GraphEdge} {s e : String}
    (hnn : ∀ u v w, adjW (buildGraph edges) u v = some w → 0 ≤ w)
    (hsk : mhas (buildGraph edges) s = true)
    (hek : mhas (buildGraph edges) e = true) (k : Nat) :
    ∃ U2 S2, e ∈ U2 ∧
      LoopInvN (buildGraph edges) s e
        (dijkstraLoop (buildGraph edges) e
          (((buildGraph edges).map (fun q => q.1)).length + k)
          (fset (fun _ => none) s (some 0), fun _ => none)
          ((buildGraph edges).map (fun q => q.1))).1
        (dijkstraLoop (buildGraph edges) e
          (((buildGraph edges).map (fun q => q.1)).length + k)
          (fset (fun _ => none) s (some 0), fun _ => none)
          ((buildGraph edges).map (fun q => q.1))).2 U2 S2 ∧
      ((∃ m2, (dijkstraLoop (buildGraph edges) e
          (((buildGraph edges).map (fun q => q.1)).length + k)
          (fset (fun _ => none) s (some 0), fun _ => none)
          ((buildGraph edges).map (fun q => q.1))).1 e = some m2 ∧
          ∀ y ∈ U2, oltb ((dijkstraLoop (buildGraph edges) e
            (((buildGraph edges).map (fun q => q.1)).length + k)
            (fset (fun _ => none) s (some 0), fun _ => none)
            ((buildGraph edges).map (fun q => q.1))).1 y) (some m2) = false) ∨
        (∀ y ∈ U2, (dijkstraLoop (buildGraph edges) e
          (((buildGraph edges).map (fun q => q.1)).length + k)
          (fset (fun _ => none) s (some 0), fun _ => none)
          ((buildGraph edges).map (fun q => q.1))).1 y = none)) := by
  have hWF := graphWF_buildGraph edges
  have hres := dijkstraLoop_master (buildGraph edges) e
    (fun d p U => ∃ S, LoopInvN (buildGraph edges) s e d p U S)
    (by
      rintro d p U u m ⟨S, hInv⟩ hscan hne _
      exact ⟨S ++ [u], loopInvN_preserve hWF hnn hInv hscan hne⟩)
    (((buildGraph edges).map (fun q => q.1)).length + k)
    (fset (fun _ => none) s (some 0)) (fun _ => none)
    ((buildGraph edges).map (fun q => q.1))
    ⟨[], loopInvN_init hWF hsk hek⟩ (by omega)
    ((mhas_iff_mem_keys _ e).mp hek)
  rcases hres with ⟨U2, hend2, ⟨S2, hinv⟩, hexit⟩
  exact ⟨U2, S2, hend2, hinv, hexit⟩

theorem settled_length_le {g : Graph} {s e : String}
    {d : String → Option ℚ} {p : String → Option String}
    {U S : List String} (inv : LoopInv g s e d p U S) :
    S.length ≤ (g.map (fun q => q.1)).length := by
  refine (List.subperm_of_subset inv.Snodup ?_).length_le
  intro x hx
  exact ((inv.settledIff x).mp hx).1

/-! ## Fuel-independence of `dijkstra` (termination of the JS loops) -/

theorem dijkstraFueled_eq_dijkstra (k : Nat) (edges : List GraphEdge)
    (s e : String) : dijkstraFueled k edges s e = dijkstra edges s e := by
  rw [dijkstra]
  simp only [dijkstraFueled]
  by_cases hcond : ¬ (mhas (buildGraph edges) s = true ∧
      mhas (buildGraph edges) e = true)
  · rw [if_pos hcond, if_pos hcond]
  · rw [if_neg hcond, if_neg hcond]
    by_cases hse : s = e
    · rw [if_pos hse, if_pos hse]
    · rw [if_neg hse, if_neg hse]
      push_neg at hcond
      obtain ⟨hsk, hek⟩ := hcond
      have hloop : dijkstraLoop (buildGraph edges) e
          (((buildGraph edges).map (fun q => q.1)).length + k)
          (fset (fun _ => none) s (some 0), fun _ => none)
          ((buildGraph edges).map (fun q => q.1)) =
        dijkstraLoop (buildGraph edges) e
          (((buildGraph edges).map (fun q => q.1)).length + 0)
          (fset (fun _ => none) s (some 0), fun _ => none)
          ((buildGraph edges).map (fun q => q.1)) := by
        rw [dijkstraLoop_fuel_stable _ _ _ _ _ _ (by omega),
          dijkstraLoop_fuel_stable _ _
            (((buildGraph edges).map (fun q => q.1)).length + 0) _ _ _
            (by omega)]
      rw [hloop]
      rcases loop_post_exists hsk hek 0 with ⟨U2, S2, hend2, hinv, hexit⟩
      have hdies := chainDies_endNode hinv
      have hS2 : S2.length ≤
          ((buildGraph edges).map (fun q => q.1)).length :=
        settled_length_le hinv
      have hrecon : reconstructPath
          (dijkstraLoop (buildGraph edges) e
            (((buildGraph edges).map (fun q => q.1)).length + 0)
            (fset (fun _ => none) s (some 0), fun _ => none)
            ((buildGraph edges).map (fun q => q.1))).2
          (((buildGraph edges).map (fun q => q.1)).length + 1 + k)
          (some e) [] =
        reconstructPath
          (dijkstraLoop (buildGraph edges) e
            (((buildGraph edges).map (fun q => q.1)).length + 0)
            (fset (fun _ => none) s (some 0), fun _ => none)
            ((buildGraph edges).map (fun q => q.1))).2
          (((buildGraph edges).map (fun q => q.1)).length + 1 + 0)
          (some e) [] := by
        have h1 := reconstructPath_stable _ (S2.length + 1) (some e) []
          (((buildGraph edges).map (fun q => q.1)).length + 1 + k) hdies
          (by omega)
        have h2 := reconstructPath_stable _ (S2.length + 1) (some e) []
          (((buildGraph edges).map (fun q => q.1)).length + 1 + 0) hdies
          (by omega)
        rw [h1, h2]
      rw [hrecon]

/-! ## Reachability analysis at loop exit -/

theorem reach_settled {g : Graph} {s e : String}
    {d : String → Option ℚ} {p : String → Option String} {U S : List String}
    (hWF : GraphWF g) (inv : LoopInv g s e d p U S)
    (hallinf : ∀ y ∈ U, d y = none) :
    ∀ (n : Nat) (P : List String) (x : String), P.length ≤ n →
      WalkFrom g s x P → x ∉ U := by
  intro n
  induction n with
  | zero =>
    intro P x hlen hP
    rw [List.length_eq_zero.mp (Nat.le_zero.mp hlen)] at hP
    exact absurd rfl (walkFrom_nonempty hP)
  | succ n ihn =>
    intro P x hlen hP hxU
    have hdx : d x = none := hallinf x hxU
    rcases walkFrom_unsnoc hP with ⟨hPs, hxs⟩ | ⟨Q1, z, w, hPeq, hQ1, hadj, _⟩
    · subst hxs
      rw [inv.dStart] at hdx
      cases hdx
    · have hzU : z ∉ U := by
        apply ihn Q1 z _ hQ1
        have hlenP : P.length = Q1.length + 1 := by
          rw [hPeq, List.length_append, List.length_singleton]
        omega
      have hzk : z ∈ g.map (fun q => q.1) := by
        have hth := hWF.targetsHaveKeys z x
          (by rw [hadj]; exact fun h => Option.noConfusion h)
        exact (mhas_iff_mem_keys g z).mp hth.1
      have hzS : z ∈ S := (inv.settledIff z).mpr ⟨hzk, hzU⟩
      have hdxne : d x ≠ none := inv.closure z hzS x
        (by rw [hadj]; exact fun h => Option.noConfusion h)
      exact hdxne hdx

theorem not_connected_of_allinf {g : Graph} {s e : String}
    {d : String → Option ℚ} {p : String → Option String} {U S : List String}
    (hWF : GraphWF g) (inv : LoopInv g s e d p U S)
    (hallinf : ∀ y ∈ U, d y = none) (heU : e ∈ U) :
    ¬ Connected g s e := by
  rintro ⟨P, hP⟩
  exact reach_settled hWF inv hallinf P.length P e (le_refl _) hP heU

theorem reconstructPath_length (previous : String → Option String) :
    ∀ (f : Nat) (c : Option String) (acc : List String),
      acc.length ≤ (reconstructPath previous f c acc).length := by
  intro f
  induction f with
  | zero =>
    intro c acc
    exact le_refl _
  | succ f ihf =>
    intro c acc
    cases c with
    | none => exact le_refl _
    | some c0 =>
      have hrec := ihf (jsOrNull (previous c0)) (c0 :: acc)
      calc acc.length ≤ (c0 :: acc).length := by
            rw [List.length_cons]
            omega
        _ ≤ _ := hrec

theorem reconstructPath_some_ne_nil (previous : String → Option String)
    {f : Nat} (hf : 1 ≤ f) (c : String) (acc : List String) :
    reconstructPath previous f (some c) acc ≠ [] := by
  cases f with
  | zero => omega
  | succ f =>
    show reconstructPath previous f (jsOrNull (previous c)) (c :: acc) ≠ []
    have hlen := reconstructPath_length previous f
      (jsOrNull (previous c)) (c :: acc)
    rw [List.length_cons] at hlen
    intro hnil
    rw [hnil] at hlen
    simp at hlen

/-- Characterisation of the `null` outcome of `dijkstra`, for arbitrary
inputs (any weights): `null` is returned exactly when an endpoint is
unknown or the endpoints are distinct and disconnected. -/
theorem dijkstra_eq_none_iff (edges : List GraphEdge) (s e : String) :
    dijkstra edges s e = none ↔
      mhas (buildGraph edges) s = false ∨ mhas (buildGraph edges) e = false ∨
      (s ≠ e ∧ ¬ Connected (buildGraph edges) s e) := by
  rw [dijkstra]
  simp only [dijkstraFueled]
  by_cases hcond : ¬ (mhas (buildGraph edges) s = true ∧
      mhas (buildGraph edges) e = true)
  · rw [if_pos hcond]
    refine iff_of_true rfl ?_
    rw [not_and_or] at hcond
    rcases hcond with hc | hc
    · exact Or.inl (Bool.eq_false_iff.mpr hc)
    · exact Or.inr (Or.inl (Bool.eq_false_iff.mpr hc))
  · rw [if_neg hcond]
    push_neg at hcond
    obtain ⟨hsk, hek⟩ := hcond
    by_cases hse : s = e
    · rw [if_pos hse]
      refine iff_of_false (fun h => Option.noConfusion h) ?_
      rintro (hc | hc | ⟨hne, _⟩)
      · rw [hsk] at hc
        cases hc
      · rw [hek] at hc
        cases hc
      · exact hne hse
    · rw [if_neg hse]
      rcases loop_post_exists hsk hek 0 with ⟨U2, S2, hend2, hinv, hexit⟩
      rcases hexit with ⟨m2, hd2e, hmin2⟩ | hallinf
      · have hpne : (dijkstraLoop (buildGraph edges) e
            (((buildGraph edges).map (fun q => q.1)).length + 0)
            (fset (fun _ => none) s (some 0), fun _ => none)
            ((buildGraph edges).map (fun q => q.1))).2 e ≠ none :=
          hinv.pSet e (fun h => hse h.symm)
            (by rw [hd2e]; exact fun h => Option.noConfusion h)
        rw [if_neg (fun hc => hpne hc.1), hd2e]
        dsimp only
        have hpathne := reconstructPath_some_ne_nil
          (dijkstraLoop (buildGraph edges) e
            (((buildGraph edges).map (fun q => q.1)).length + 0)
            (fset (fun _ => none) s (some 0), fun _ => none)
            ((buildGraph edges).map (fun q => q.1))).2
          (show 1 ≤ ((buildGraph edges).map (fun q => q.1)).length + 1 + 0
            from by omega) e []
        rw [if_neg (fun hc => hpathne (List.isEmpty_iff.mp hc))]
        refine iff_of_false (fun h => Option.noConfusion h) ?_
        rintro (hc | hc | ⟨_, hnc⟩)
        · rw [hsk] at hc
          cases hc
        · rw [hek] at hc
          cases hc
        · rcases hinv.achieve e m2 hd2e with ⟨P, hP, _⟩
          exact hnc ⟨P, hP⟩
      · have hd2e : (dijkstraLoop (buildGraph edges) e
            (((buildGraph edges).map (fun q => q.1)).length + 0)
            (fset (fun _ => none) s (some 0), fun _ => none)
            ((buildGraph edges).map (fun q => q.1))).1 e = none :=
          hallinf e hend2
        have hp2e : (dijkstraLoop (buildGraph edges) e
            (((buildGraph edges).map (fun q => q.1)).length + 0)
            (fset (fun _ => none) s (some 0), fun _ => none)
            ((buildGraph edges).map (fun q => q.1))).2 e = none := by
          rcases hq : (dijkstraLoop (buildGraph edges) e
            (((buildGraph edges).map (fun q => q.1)).length + 0)
            (fset (fun _ => none) s (some 0), fun _ => none)
            ((buildGraph edges).map (fun q => q.1))).2 e with _ | u0
          · exact hq
          · exact absurd hd2e (hinv.pFinite e u0 hq).1
        rw [if_pos ⟨hp2e, hse⟩]
        refine iff_of_true rfl ?_
        exact Or.inr (Or.inr ⟨hse, not_connected_of_allinf
          (graphWF_buildGraph edges) hinv hallinf hend2⟩)

/-- The defensive double-check of lines 124–127 never fires, on any
input whatsoever. -/
theorem defensiveCheckFires_eq_false (edges : List GraphEdge)
    (s e : String) : defensiveCheckFires edges s e = false := by
  simp only [defensiveCheckFires]
  by_cases hcond : ¬ (mhas (buildGraph edges) s = true ∧
      mhas (buildGraph edges) e = true)
  · rw [if_pos hcond]
  · rw [if_neg hcond]
    push_neg at hcond
    obtain ⟨hsk, hek⟩ := hcond
    by_cases hse : s = e
    · rw [if_pos hse]
    · rw [if_neg hse]
      rcases loop_post_exists hsk hek 0 with ⟨U2, S2, hend2, hinv, hexit⟩
      rw [Nat.add_zero] at hinv hexit
      by_cases hp2 : (dijkstraLoop (buildGraph edges) e
          (((buildGraph edges).map (fun q => q.1)).length)
          (fset (fun _ => none) s (some 0), fun _ => none)
          ((buildGraph edges).map (fun q => q.1))).2 e = none
      · rw [if_pos ⟨hp2, hse⟩]
      · rw [if_neg (fun hc => hp2 hc.1)]
        rcases hq : (dijkstraLoop (buildGraph edges) e
            (((buildGraph edges).map (fun q => q.1)).length)
            (fset (fun _ => none) s (some 0), fun _ => none)
            ((buildGraph edges).map (fun q => q.1))).2 e with _ | u0
        · exact absurd hq hp2
        · have hd2e : (dijkstraLoop (buildGraph edges) e
              (((buildGraph edges).map (fun q => q.1)).length)
              (fset (fun _ => none) s (some 0), fun _ => none)
              ((buildGraph edges).map (fun q => q.1))).1 e ≠ none :=
            (hinv.pFinite e u0 hq).1
          have hpathne := reconstructPath_some_ne_nil
            (dijkstraLoop (buildGraph edges) e
              (((buildGraph edges).map (fun q => q.1)).length)
              (fset (fun _ => none) s (some 0), fun _ => none)
              ((buildGraph edges).map (fun q => q.1))).2
            (show 1 ≤ ((buildGraph edges).map (fun q => q.1)).length + 1
              from by omega) e []
          rw [Bool.or_eq_false_iff]
          constructor
          · rw [decide_eq_false_iff_not]
            exact hd2e
          · rcases hpath : (reconstructPath
              (dijkstraLoop (buildGraph edges) e
                (((buildGraph edges).map (fun q => q.1)).length)
                (fset (fun _ => none) s (some 0), fun _ => none)
                ((buildGraph edges).map (fun q => q.1))).2
              (((buildGraph edges).map (fun q => q.1)).length + 1)
              (some e) []) with _ | ⟨a, rest⟩
            · exact absurd hpath hpathne
            · rw [List.isEmpty_cons]

/-- Distance correctness for non-negative weights: a returned distance
is the cost of some walk from `s` to `e`, and is a lower bound on the
cost of every walk from `s` to `e`. -/
theorem dijkstra_distance_spec (edges : List GraphEdge) (s e : String)
    (hnn : ∀ ed ∈ edges, 0 ≤ ed.weight) :
    ∀ path dist, dijkstra edges s e = some (path, dist) →
      (∃ P, WalkFrom (buildGraph edges) s e P ∧
        walkCost (buildGraph edges) P = dist) ∧
      (∀ Q, WalkFrom (buildGraph edges) s e Q →
        dist ≤ walkCost (buildGraph edges) Q) := by
  have hnnadj : ∀ u v w, adjW (buildGraph edges) u v = some w → 0 ≤ w :=
    adjW_buildGraph_weights edges hnn
  intro path dist hres
  rw [dijkstra] at hres
  simp only [dijkstraFueled] at hres
  by_cases hcond : ¬ (mhas (buildGraph edges) s = true ∧
      mhas (buildGraph edges) e = true)
  · rw [if_pos hcond] at hres
    cases hres
  · rw [if_neg hcond] at hres
    push_neg at hcond
    obtain ⟨hsk, hek⟩ := hcond
    by_cases hse : s = e
    · rw [if_pos hse] at hres
      obtain ⟨hpath, hdist⟩ := Prod.mk.injEq _ _ _ _ ▸
        Option.some.inj hres
      subst hse
      constructor
      · exact ⟨[s], walkFrom_self _ s, by
          rw [walkCost_singleton, hdist]⟩
      · intro Q hQ
        rw [← hdist]
        exact walkCost_nonneg hnnadj hQ.1
    · rw [if_neg hse] at hres
      rcases loop_post_existsN hnnadj hsk hek 0 with
        ⟨U2, S2, hend2, hinv, hexit⟩
      rcases hexit with ⟨m2, hd2e, hmin2⟩ | hallinf
      · have hpne : (dijkstraLoop (buildGraph edges) e
            (((buildGraph edges).map (fun q => q.1)).length + 0)
            (fset (fun _ => none) s (some 0), fun _ => none)
            ((buildGraph edges).map (fun q => q.1))).2 e ≠ none :=
          hinv.pSet e (fun h => hse h.symm)
            (by rw [hd2e]; exact fun h => Option.noConfusion h)
        rw [if_neg (fun hc => hpne hc.1), hd2e] at hres
        dsimp only at hres
        by_cases hem : (reconstructPath
            (dijkstraLoop (buildGraph edges) e
              (((buildGraph edges).map (fun q => q.1)).length + 0)
              (fset (fun _ => none) s (some 0), fun _ => none)
              ((buildGraph edges).map (fun q => q.1))).2
            (((buildGraph edges).map (fun q => q.1)).length + 1 + 0)
            (some e) []).isEmpty = true
        · rw [if_pos hem] at hres
          cases hres
        · rw [if_neg hem] at hres
          obtain ⟨hpath, hdist⟩ := Prod.mk.injEq _ _ _ _ ▸
            Option.some.inj hres
          subst hdist
          constructor
          · exact hinv.achieve e m2 hd2e
          · intro Q hQ
            exact greedy_bound (graphWF_buildGraph edges) hnnadj hinv
              hend2 hd2e hmin2 Q hQ
      · have hd2e : (dijkstraLoop (buildGraph edges) e
            (((buildGraph edges).map (fun q => q.1)).length + 0)
            (fset (fun _ => none) s (some 0), fun _ => none)
            ((buildGraph edges).map (fun q => q.1))).1 e = none :=
          hallinf e hend2
        have hp2e : (dijkstraLoop (buildGraph edges) e
            (((buildGraph edges).map (fun q => q.1)).length + 0)
            (fset (fun _ => none) s (some 0), fun _ => none)
            ((buildGraph edges).map (fun q => q.1))).2 e = none := by
          rcases hq : (dijkstraLoop (buildGraph edges) e
            (((buildGraph edges).map (fun q => q.1)).length + 0)
            (fset (fun _ => none) s (some 0), fun _ => none)
            ((buildGraph edges).map (fun q => q.1))).2 e with _ | u0
          · exact hq
          · exact absurd hd2e (hinv.pFinite e u0 hq).1
        rw [if_pos ⟨hp2e, hse⟩] at hres
        cases hres

/-- The reconstructed backward chain spells out a walk, provided no node
identifier is the empty string (so that line 119's `|| null` is the
identity on predecessor values). -/
theorem recon_walk_take {g : Graph} {s e : String}
    {d : String → Option ℚ} {p : String → Option String} {U S : List String}
    (inv : LoopInv g s e d p U S)
    (hkeys : ∀ x ∈ g.map (fun q => q.1), x ≠ "") :
    ∀ i, i ≤ S.length → ∀ v ∈ S.take i, ∀ x, d v = some x →
      ∀ (acc : List String) (f : Nat), i ≤ f →
      ∃ Q, reconstructPath p f (some v) acc = Q ++ acc ∧
        WalkFrom g s v Q ∧ walkCost g Q = x := by
  intro i
  induction i with
  | zero =>
    intro _ v hv
    simp at hv
  | succ i ihi =>
    intro hi v hv x hdv acc f hf
    rcases List.mem_iff_get.mp hv with ⟨⟨j, hj⟩, hgetv⟩
    have hjS : j < S.length := by
      have hh := hj
      rw [List.length_take] at hh
      omega
    have hji : j ≤ i := by
      have hh := hj
      rw [List.length_take] at hh
      omega
    have hveq : S.get ⟨j, hjS⟩ = v := by
      rw [← hgetv, List.get_eq_getElem, List.get_eq_getElem,
        List.getElem_take]
    rcases f with _ | f0
    · omega
    rcases inv.pWitness v x hdv with ⟨hvs, hx0⟩ | ⟨u, w, du, hp, hadj, hdu, hx⟩
    · subst hvs
      have hps : p v = none := inv.pStart
      refine ⟨[v], ?_, walkFrom_self g v, by rw [walkCost_singleton, hx0]⟩
      show reconstructPath p f0 (jsOrNull (p v)) (v :: acc) = [v] ++ acc
      rw [hps]
      rw [show jsOrNull none = none from rfl, reconstructPath_none]
      rfl
    · have huj : u ∈ S.take j := inv.pOrder j hjS u (by rw [hveq]; exact hp)
      have hui : u ∈ S.take i := by
        have hsub : S.take j ⊆ S.take i := by
          intro y hy
          have hp2 := (List.take_prefix j (S.take i)).subset
          rw [List.take_take, min_eq_left hji] at hp2
          exact hp2 hy
        exact hsub huj
      have huS : u ∈ S := (List.take_subset _ _) hui
      have hune : u ≠ "" := hkeys u ((inv.settledIff u).mp huS).1
      rcases ihi (by omega) u hui du hdu (v :: acc) f0 (by omega) with
        ⟨Qu, hrec, hwalk, hcost⟩
      rcases walkFrom_snoc hwalk hadj with ⟨hwalk2, hcost2⟩
      refine ⟨Qu ++ [v], ?_, hwalk2, by rw [hcost2, hcost, hx]⟩
      show reconstructPath p f0 (jsOrNull (p v)) (v :: acc) = (Qu ++ [v]) ++ acc
      rw [hp, show jsOrNull (some u) = some u from by
        rw [jsOrNull, if_neg hune], hrec]
      simp

theorem recon_walk_end {g : Graph} {s e : String}
    {d : String → Option ℚ} {p : String → Option String} {U S : List String}
    (inv : LoopInv g s e d p U S)
    (hkeys : ∀ x ∈ g.map (fun q => q.1), x ≠ "") (hse : s ≠ e) {m2 : ℚ}
    (hd2e : d e = some m2) {f : Nat} (hf : S.length + 1 ≤ f) :
    ∃ Q, reconstructPath p f (some e) [] = Q ∧
      WalkFrom g s e Q ∧ walkCost g Q = m2 := by
  rcases inv.pWitness e m2 hd2e with ⟨hvs, _⟩ | ⟨u, w, du, hp, hadj, hdu, hx⟩
  · exact absurd hvs.symm hse
  · have huS : u ∈ S := inv.pSettled e u hp
    have hune : u ≠ "" := hkeys u ((inv.settledIff u).mp huS).1
    rcases f with _ | f0
    · omega
    rcases recon_walk_take inv hkeys S.length (le_refl _) u
      (by rw [List.take_length]; exact huS) du hdu [e] f0 (by omega) with
      ⟨Qu, hrec, hwalk, hcost⟩
    rcases walkFrom_snoc hwalk hadj with ⟨hwalk2, hcost2⟩
    refine ⟨Qu ++ [e], ?_, hwalk2, by rw [hcost2, hcost, hx]⟩
    show reconstructPath p f0 (jsOrNull (p e)) (e :: []) = Qu ++ [e]
    rw [hp, show jsOrNull (some u) = some u from by
      rw [jsOrNull, if_neg hune], hrec]

theorem buildGraph_keys_ne_empty {edges : List GraphEdge}
    (hne : ∀ ed ∈ edges, ed.from_ ≠ "" ∧ ed.to_ ≠ "") :
    ∀ x ∈ (buildGraph edges).map (fun q => q.1), x ≠ "" := by
  intro x hx
  have hk := (mhas_buildGraph_iff edges x).mp
    ((mhas_iff_mem_keys _ x).mpr hx)
  rcases hk with ⟨ed, hed, hx1 | hx1⟩
  · exact hx1 ▸ (hne ed hed).1
  · exact hx1 ▸ (hne ed hed).2

/-- Path correctness: when no node identifier is the empty string, a
returned path is a contiguous walk from `s` to `e` whose total weight is
the returned distance. -/
theorem dijkstra_path_spec (edges : List GraphEdge) (s e : String)
    (hne : ∀ ed ∈ edges, ed.from_ ≠ "" ∧ ed.to_ ≠ "") :
    ∀ path dist, dijkstra edges s e = some (path, dist) →
      WalkFrom (buildGraph edges) s e path ∧
      walkCost (buildGraph edges) path = dist := by
  have hkeys := buildGraph_keys_ne_empty hne
  intro path dist hres
  rw [dijkstra] at hres
  simp only [dijkstraFueled] at hres
  by_cases hcond : ¬ (mhas (buildGraph edges) s = true ∧
      mhas (buildGraph edges) e = true)
  · rw [if_pos hcond] at hres
    cases hres
  · rw [if_neg hcond] at hres
    push_neg at hcond
    obtain ⟨hsk, hek⟩ := hcond
    by_cases hse : s = e
    · rw [if_pos hse] at hres
      obtain ⟨hpath, hdist⟩ := Prod.mk.injEq _ _ _ _ ▸
        Option.some.inj hres
      subst hse
      subst hdist
      rw [← hpath]
      exact ⟨walkFrom_self _ s, walkCost_singleton _ s⟩
    · rw [if_neg hse] at hres
      rcases loop_post_exists hsk hek 0 with ⟨U2, S2, hend2, hinv, hexit⟩
      rcases hexit with ⟨m2, hd2e, hmin2⟩ | hallinf
      · have hpne : (dijkstraLoop (buildGraph edges) e
            (((buildGraph edges).map (fun q => q.1)).length + 0)
            (fset (fun _ => none) s (some 0), fun _ => none)
            ((buildGraph edges).map (fun q => q.1))).2 e ≠ none :=
          hinv.pSet e (fun h => hse h.symm)
            (by rw [hd2e]; exact fun h => Option.noConfusion h)
        rw [if_neg (fun hc => hpne hc.1), hd2e] at hres
        dsimp only at hres
        have hS2 : S2.length ≤
            ((buildGraph edges).map (fun q => q.1)).length :=
          settled_length_le hinv
        rcases recon_walk_end hinv hkeys hse hd2e
          (show S2.length + 1 ≤
            ((buildGraph edges).map (fun q => q.1)).length + 1 + 0
            from by omega) with ⟨Q, hrecQ, hwalk, hcost⟩
        rw [hrecQ] at hres
        by_cases hem : (Q : List String).isEmpty = true
        · rw [if_pos hem] at hres
          cases hres
        · rw [if_neg hem] at hres
          obtain ⟨hpath, hdist⟩ := Prod.mk.injEq _ _ _ _ ▸
            Option.some.inj hres
          subst hdist
          rw [← hpath]
          exact ⟨hwalk, hcost⟩
      · have hd2e : (dijkstraLoop (buildGraph edges) e
            (((buildGraph edges).map (fun q => q.1)).length + 0)
            (fset (fun _ => none) s (some 0), fun _ => none)
            ((buildGraph edges).map (fun q => q.1))).1 e = none :=
          hallinf e hend2
        have hp2e : (dijkstraLoop (buildGraph edges) e
            (((buildGraph edges).map (fun q => q.1)).length + 0)
            (fset (fun _ => none) s (some 0), fun _ => none)
            ((buildGraph edges).map (fun q => q.1))).2 e = none := by
          rcases hq : (dijkstraLoop (buildGraph edges) e
            (((buildGraph edges).map (fun q => q.1)).length + 0)
            (fset (fun _ => none) s (some 0), fun _ => none)
            ((buildGraph edges).map (fun q => q.1))).2 e with _ | u0
          · exact hq
          · exact absurd hd2e (hinv.pFinite e u0 hq).1
        rw [if_pos ⟨hp2e, hse⟩] at hres
        cases hres

/-- Distance symmetry and null-symmetry for non-negative weights. -/
theorem dijkstra_symm_spec (edges : List GraphEdge) (A B : String)
    (hnn : ∀ ed ∈ edges, 0 ≤ ed.weight) :
    (dijkstra edges A B = none ↔ dijkstra edges B A = none) ∧
    (∀ p1 d1 p2 d2, dijkstra edges A B = some (p1, d1) →
      dijkstra edges B A = some (p2, d2) → d1 = d2) := by
  have hWF := graphWF_buildGraph edges
  constructor
  · rw [dijkstra_eq_none_iff, dijkstra_eq_none_iff]
    constructor
    · rintro (hc | hc | ⟨hne, hnc⟩)
      · exact Or.inr (Or.inl hc)
      · exact Or.inl hc
      · exact Or.inr (Or.inr ⟨fun h => hne h.symm,
          fun hc => hnc (connected_symm hWF.adjSymm hc)⟩)
    · rintro (hc | hc | ⟨hne, hnc⟩)
      · exact Or.inr (Or.inl hc)
      · exact Or.inl hc
      · exact Or.inr (Or.inr ⟨fun h => hne h.symm,
          fun hc => hnc (connected_symm hWF.adjSymm hc)⟩)
  · intro p1 d1 p2 d2 h1 h2
    obtain ⟨⟨P1, hP1, hP1c⟩, hmin1⟩ :=
      dijkstra_distance_spec edges A B hnn p1 d1 h1
    obtain ⟨⟨P2, hP2, hP2c⟩, hmin2⟩ :=
      dijkstra_distance_spec edges B A hnn p2 d2 h2
    have h12 : d1 ≤ d2 := by
      rcases walkFrom_reverse hWF.adjSymm hP2 with ⟨hrev, hrevc⟩
      have := hmin1 P2.reverse hrev
      rw [hrevc, hP2c] at this
      exact this
    have h21 : d2 ≤ d1 := by
      rcases walkFrom_reverse hWF.adjSymm hP1 with ⟨hrev, hrevc⟩
      have := hmin2 P1.reverse hrev
      rw [hrevc, hP1c] at this
      exact this
    linarith

/-! ## Appending a self-loop edge -/

theorem buildGraph_append_one (edges : List GraphEdge) (e : GraphEdge) :
    buildGraph (edges ++ [e]) = addEdge (buildGraph edges) e := by
  rw [buildGraph, buildGraph, List.foldl_append]
  rfl

theorem mget_addEdge_self_ne (g : Graph) (X : String) (w : ℚ) {y : String}
    (hy : y ≠ X) :
    mget (addEdge g ⟨X, X, w⟩) y = mget g y := by
  simp only [addEdge]
  rw [mget_mset, if_neg hy, mget_mset, if_neg hy,
    mget_ensure_ne _ _ hy, mget_ensure_ne _ _ hy]

theorem mset_mset_same {α : Type} (l : List (String × α)) (k : String)
    (v : α) : mset (mset l k v) k v = mset l k v := by
  by_cases h : mhas l k = true
  · rw [mset_eq_map h v]
    have h2 : mhas (l.map (fun p => if p.1 = k then (k, v) else p)) k
        = true := by
      rw [show (l.map (fun p => if p.1 = k then (k, v) else p)) =
        mset l k v from (mset_eq_map h v).symm]
      rw [mhas_iff_mem_keys, keys_mset, if_pos h, ← mhas_iff_mem_keys]
      exact h
    rw [mset_eq_map h2 v, List.map_map]
    congr 1
    funext q
    by_cases hq : q.1 = k
    · simp [hq]
    · simp [hq]
  · have hl : mset l k v = l ++ [(k, v)] :=
      mset_eq_append (show mhas l k = false by simpa using h) v
    rw [hl]
    have h2 : mhas (l ++ [(k, v)]) k = true := by
      rw [mhas_iff_exists]
      exact ⟨(k, v), List.mem_append_right _ (by simp), rfl⟩
    rw [mset_eq_map h2 v]
    rw [List.map_append]
    have hmap : l.map (fun p => if p.1 = k then (k, v) else p) = l := by
      conv_rhs => rw [show l = l.map id from (List.map_id l).symm]
      apply List.map_congr_left
      intro q hq
      have hqk : ¬ (q.1 = k) := by
        intro hh
        have hhas : mhas l k = true := by
          rw [mhas_iff_exists]
          exact ⟨q, hq, hh⟩
        exact h hhas
      rw [if_neg hqk]
      rfl
    rw [hmap]
    simp

theorem mget_addEdge_self_self (g : Graph) (X : String) (w : ℚ) :
    mget (addEdge g ⟨X, X, w⟩) X =
      some (mset ((mget g X).getD []) X w) := by
  simp only [addEdge]
  rw [mget_mset, if_pos rfl]
  congr 1
  rw [mget_mset, if_pos rfl, Option.getD_some, mset_mset_same]
  suffices h : (mget (if mhas (if mhas g X = true then g else mset g X [])
      X = true then (if mhas g X = true then g else mset g X [])
      else mset (if mhas g X = true then g else mset g X []) X []) X).getD []
      = (mget g X).getD [] by rw [h]
  rw [mgetD_ensure_self, mgetD_ensure_self]

theorem keys_addEdge_self (g : Graph) (X : String) (w : ℚ) :
    (addEdge g ⟨X, X, w⟩).map (fun q => q.1) =
      if mhas g X = true then g.map (fun q => q.1)
      else g.map (fun q => q.1) ++ [X] := by
  simp only [addEdge]
  by_cases hX : mhas g X = true
  · rw [if_pos hX, if_pos hX, if_pos hX]
    have h1 : mhas g X = true := hX
    rw [keys_mset, if_pos (by
      rw [mhas_mset_iff]
      exact Or.inl hX), keys_mset, if_pos hX]
  · rw [if_neg hX, if_neg hX]
    have h2 : mhas (mset g X ([] : List (String × ℚ))) X = true := by
      rw [mhas_mset_iff]
      exact Or.inr rfl
    rw [if_pos h2]
    rw [keys_mset, if_pos (by
      rw [mhas_mset_iff]
      exact Or.inl h2), keys_mset, if_pos h2, keys_mset, if_neg hX]

theorem mhas_addEdge_self (g : Graph) (X : String) (w : ℚ) (y : String) :
    mhas (addEdge g ⟨X, X, w⟩) y = true ↔ mhas g y = true ∨ y = X := by
  rw [mhas_addEdge]
  constructor
  · rintro (h | h | h)
    · exact Or.inl h
    · exact Or.inr h
    · exact Or.inr h
  · rintro (h | h)
    · exact Or.inl h
    · exact Or.inr (Or.inl h)

theorem relax_map_selfkey (u : String) (U' : List String)
    (l : List (String × ℚ)) (w : ℚ)
    (d : String → Option ℚ) (p : String → Option String) (hu : u ∉ U') :
    relaxNeighbors u U' (l.map (fun q => if q.1 = u then (u, w) else q))
      (d, p) = relaxNeighbors u U' l (d, p) := by
  induction l generalizing d p with
  | nil => rfl
  | cons q t ih =>
    rw [List.map_cons]
    by_cases hq : q.1 = u
    · rw [if_pos hq]
      rw [relaxStep_cons, relaxStep_cons]
      have hcont : U'.contains (u, w).1 = false := by
        rcases hc : U'.contains (u, w).1 with _ | _
        · rfl
        · exact absurd ((contains_iff_mem _ _).mp hc) hu
      have hcont2 : U'.contains q.1 = false := by
        rw [hq]
        rcases hc : U'.contains u with _ | _
        · rfl
        · exact absurd ((contains_iff_mem _ _).mp hc) hu
      rw [hcont, hcont2]
      dsimp only
      exact ih d p
    · rw [if_neg hq]
      rw [relaxStep_cons, relaxStep_cons]
      by_cases hc : U'.contains q.1 = true
      · rw [if_pos hc]
        by_cases hlt : oltb (oadd (d u) q.2) (d q.1) = true
        · rw [if_pos hlt]
          exact ih _ _
        · rw [if_neg hlt]
          exact ih d p
      · rw [if_neg hc]
        exact ih d p

theorem relax_append_selfentry (u : String) (U' : List String)
    (l : List (String × ℚ)) (w : ℚ)
    (d : String → Option ℚ) (p : String → Option String) (hu : u ∉ U') :
    relaxNeighbors u U' (l ++ [(u, w)]) (d, p) =
      relaxNeighbors u U' l (d, p) := by
  have happ : relaxNeighbors u U' (l ++ [(u, w)]) (d, p) =
      relaxNeighbors u U' [(u, w)] (relaxNeighbors u U' l (d, p)) := by
    simp [relaxNeighbors, List.foldl_append]
  rw [happ]
  rcases hdp : relaxNeighbors u U' l (d, p) with ⟨d2, p2⟩
  rw [relaxStep_cons]
  have hcont : U'.contains (u, w).1 = false := by
    rcases hc : U'.contains (u, w).1 with _ | _
    · rfl
    · exact absurd ((contains_iff_mem _ _).mp hc) hu
  rw [hcont]
  rfl

theorem relax_mset_self (u : String) (U' : List String)
    (l : List (String × ℚ)) (w : ℚ)
    (d : String → Option ℚ) (p : String → Option String) (hu : u ∉ U') :
    relaxNeighbors u U' (mset l u w) (d, p) =
      relaxNeighbors u U' l (d, p) := by
  by_cases h : mhas l u = true
  · rw [mset_eq_map h w]
    exact relax_map_selfkey u U' l w d p hu
  · rw [mset_eq_append (by simpa using h) w]
    exact relax_append_selfentry u U' l w d p hu

theorem relax_unvisited_append (u X : String) (U' : List String)
    (nbrs : List (String × ℚ))
    (d : String → Option ℚ) (p : String → Option String)
    (hX : ∀ w2, (X, w2) ∉ nbrs) :
    relaxNeighbors u (U' ++ [X]) nbrs (d, p) =
      relaxNeighbors u U' nbrs (d, p) := by
  induction nbrs generalizing d p with
  | nil => rfl
  | cons nb t ih =>
    have hnbX : nb.1 ≠ X := by
      intro hh
      exact hX nb.2 (by
        rw [← hh]
        exact List.mem_cons_self nb t)
    have hcont : (U' ++ [X]).contains nb.1 = U'.contains nb.1 := by
      rcases hc : U'.contains nb.1 with _ | _
      · rcases hc2 : (U' ++ [X]).contains nb.1 with _ | _
        · rfl
        · have := (contains_iff_mem _ _).mp hc2
          rcases List.mem_append.mp this with hm | hm
          · have hctrue := (contains_iff_mem U' nb.1).mpr hm
            rw [hc] at hctrue
            cases hctrue
          · exact absurd (List.mem_singleton.mp hm) hnbX
      · rw [(contains_iff_mem _ _).mpr
          (List.mem_append_left _ ((contains_iff_mem _ _).mp hc))]
    have htail : ∀ w2, (X, w2) ∉ t :=
      fun w2 hw2 => hX w2 (List.mem_cons_of_mem nb hw2)
    rw [relaxStep_cons, relaxStep_cons, hcont]
    by_cases hc : U'.contains nb.1 = true
    · rw [if_pos hc]
      by_cases hlt : oltb (oadd (d u) nb.2) (d nb.1) = true
      · rw [if_pos hlt]
        exact ih _ _ htail
      · rw [if_neg hlt]
        exact ih d p htail
    · rw [if_neg hc]
      exact ih d p htail

theorem scanMin_append_none (d : String → Option ℚ) (U : List String)
    (X : String) (hX : d X = none) :
    scanMin d (U ++ [X]) = scanMin d U := by
  rw [scanMin_append, hX, oltb_none_left]
  rw [if_neg (fun h => Bool.noConfusion h)]

theorem dijkstraLoop_selfloop_existing {g : Graph} (X : String) (w : ℚ)
    (e : String) (hX : mhas g X = true) :
    ∀ (fuel : Nat) (d : String → Option ℚ) (p : String → Option String)
      (U : List String), U.Nodup →
      dijkstraLoop (addEdge g ⟨X, X, w⟩) e fuel (d, p) U =
        dijkstraLoop g e fuel (d, p) U := by
  intro fuel
  induction fuel with
  | zero =>
    intro d p U _
    rfl
  | succ fuel ih =>
    intro d p U hnodup
    rw [dijkstraLoop_succ, dijkstraLoop_succ]
    by_cases hU : U.isEmpty = true
    · rw [if_pos hU, if_pos hU]
    · rw [if_neg hU, if_neg hU]
      rcases scanMin_spec d U with ⟨hs, _⟩ | ⟨u, m, hs, hu, hd, _⟩
      · rw [hs]
      · rw [hs]
        dsimp only
        by_cases hue : u = e
        · rw [if_pos hue, if_pos hue]
        · rw [if_neg hue, if_neg hue]
          have huU' : u ∉ U.erase u := by
            intro hmem
            exact ((hnodup.mem_erase_iff).mp hmem).1 rfl
          have hrel : relaxNeighbors u (U.erase u)
              ((mget (addEdge g ⟨X, X, w⟩) u).getD []) (d, p) =
              relaxNeighbors u (U.erase u) ((mget g u).getD []) (d, p) := by
            by_cases hux : u = X
            · subst hux
              rw [mget_addEdge_self_self, Option.getD_some]
              exact relax_mset_self u (U.erase u) _ w d p huU'
            · rw [mget_addEdge_self_ne g X w hux]
          rw [hrel]
          rcases hdp : relaxNeighbors u (U.erase u) ((mget g u).getD [])
            (d, p) with ⟨d2, p2⟩
          exact ih d2 p2 (U.erase u) (hnodup.erase u)

theorem dijkstraLoop_selfloop_new {g : Graph} (hWF : GraphWF g)
    (X : String) (w : ℚ) (e : String) (hX : mhas g X = false) :
    ∀ (fuel : Nat) (d : String → Option ℚ) (p : String → Option String)
      (U : List String), U.Nodup → (∀ y ∈ U, mhas g y = true) →
      d X = none →
      dijkstraLoop (addEdge g ⟨X, X, w⟩) e fuel (d, p) (U ++ [X]) =
        dijkstraLoop g e fuel (d, p) U := by
  intro fuel
  induction fuel with
  | zero =>
    intro d p U _ _ _
    rfl
  | succ fuel ih =>
    intro d p U hnodup hkeys hdX
    rw [dijkstraLoop_succ, dijkstraLoop_succ]
    rw [if_neg (show ¬ ((U ++ [X]).isEmpty = true) from by simp)]
    rw [scanMin_append_none d U X hdX]
    by_cases hU : U.isEmpty = true
    · rw [if_pos hU]
      have hUnil : U = [] := List.isEmpty_iff.mp hU
      subst hUnil
      rfl
    · rw [if_neg hU]
      rcases scanMin_spec d U with ⟨hs, _⟩ | ⟨u, m, hs, hu, hd, _⟩
      · rw [hs]
      · rw [hs]
        dsimp only
        by_cases hue : u = e
        · rw [if_pos hue, if_pos hue]
        · rw [if_neg hue, if_neg hue]
          have huX : u ≠ X := by
            intro hh
            rw [hh, hdX] at hd
            cases hd
          have herase : (U ++ [X]).erase u = U.erase u ++ [X] :=
            List.erase_append_left [X] hu
          have hXerase : X ∉ U.erase u := by
            intro hmem
            have hXU := List.erase_subset u U hmem
            rw [hkeys X hXU] at hX
            cases hX
          have hnods : (((mget g u).getD []).map (fun q => q.1)).Nodup := by
            rcases hg : mget g u with _ | nbrs
            · simp
            · simpa using hWF.adjNodup u nbrs hg
          have hXnot : ∀ w2, (X, w2) ∉ (mget g u).getD [] := by
            intro w2 hw2
            have hsome : mget ((mget g u).getD []) X = some w2 :=
              (mget_eq_some_iff_mem hnods X w2).mpr hw2
            rw [mget_getD_eq_adjW] at hsome
            have hth := hWF.targetsHaveKeys u X
              (by rw [hsome]; exact fun h => Option.noConfusion h)
            rw [hX] at hth
            exact Bool.noConfusion hth.2
          rw [herase, mget_addEdge_self_ne g X w huX,
            relax_unvisited_append u X (U.erase u) _ d p hXnot]
          rcases hdp : relaxNeighbors u (U.erase u) ((mget g u).getD [])
            (d, p) with ⟨d2, p2⟩
          have hd2X : d2 X = none := by
            have hun := relax_unchanged u (U.erase u) ((mget g u).getD [])
              d p X (Or.inl hXerase)
            rw [hdp] at hun
            exact hun.1.trans hdX
          exact ih d2 p2 (U.erase u) (hnodup.erase u)
            (fun y hy => hkeys y (List.erase_subset u U hy)) hd2X

/-- Appending a self-loop edge `{X, X, w}` changes neither the `null`-ness
nor the value of `dijkstra` for endpoints that appear in the original
edge list. -/
theorem dijkstra_selfloop (edges : List GraphEdge) (X : String) (w : ℚ)
    (s e : String)
    (hs : ∃ ed ∈ edges, ed.from_ = s ∨ ed.to_ = s)
    (he : ∃ ed ∈ edges, ed.from_ = e ∨ ed.to_ = e) :
    dijkstra (edges ++ [⟨X, X, w⟩]) s e = dijkstra edges s e := by
  have hWF := graphWF_buildGraph edges
  have hsk : mhas (buildGraph edges) s = true :=
    (mhas_buildGraph_iff edges s).mpr hs
  have hek : mhas (buildGraph edges) e = true :=
    (mhas_buildGraph_iff edges e).mpr he
  rw [dijkstra, dijkstra]
  simp only [dijkstraFueled]
  rw [buildGraph_append_one]
  have hsk2 : mhas (addEdge (buildGraph edges) ⟨X, X, w⟩) s = true :=
    (mhas_addEdge_self _ X w s).mpr (Or.inl hsk)
  have hek2 : mhas (addEdge (buildGraph edges) ⟨X, X, w⟩) e = true :=
    (mhas_addEdge_self _ X w e).mpr (Or.inl hek)
  rw [if_neg (show ¬¬(mhas (addEdge (buildGraph edges) ⟨X, X, w⟩) s = true ∧
        mhas (addEdge (buildGraph edges) ⟨X, X, w⟩) e = true) from
      fun hc => hc ⟨hsk2, hek2⟩),
    if_neg (show ¬¬(mhas (buildGraph edges) s = true ∧
        mhas (buildGraph edges) e = true) from fun hc => hc ⟨hsk, hek⟩)]
  by_cases hse : s = e
  · rw [if_pos hse, if_pos hse]
  · rw [if_neg hse, if_neg hse]
    by_cases hXk : mhas (buildGraph edges) X = true
    · have hkeys : (addEdge (buildGraph edges) ⟨X, X, w⟩).map
          (fun p => p.1) = (buildGraph edges).map (fun p => p.1) := by
        rw [keys_addEdge_self, if_pos hXk]
      rw [hkeys]
      have hloop := dijkstraLoop_selfloop_existing X w e hXk
        (((buildGraph edges).map (fun p => p.1)).length + 0)
        (fset (fun _ => none) s (some 0)) (fun _ => none)
        ((buildGraph edges).map (fun p => p.1)) hWF.nodupKeys
      rw [hloop]
    · have hkeys : (addEdge (buildGraph edges) ⟨X, X, w⟩).map
          (fun p => p.1) = (buildGraph edges).map (fun p => p.1) ++ [X] := by
        rw [keys_addEdge_self, if_neg hXk]
      rw [hkeys]
      have hXs : X ≠ s := by
        intro hh
        rw [hh, hsk] at hXk
        exact hXk rfl
      have hd0X : fset (fun _ : String => none) s
          ((some 0 : Option ℚ)) X = none := fset_ne _ hXs _
      have hloop := dijkstraLoop_selfloop_new hWF X w e
        (Bool.eq_false_iff.mpr hXk)
        ((((buildGraph edges).map (fun p => p.1)) ++ [X]).length + 0)
        (fset (fun _ => none) s (some 0)) (fun _ => none)
        ((buildGraph edges).map (fun p => p.1)) hWF.nodupKeys
        (fun y hy => (mhas_iff_mem_keys _ y).mpr hy) hd0X
      rw [hloop]
      have hstab : dijkstraLoop (buildGraph edges) e
          ((((buildGraph edges).map (fun p => p.1)) ++ [X]).length + 0)
          (fset (fun _ => none) s (some 0), fun _ => none)
          ((buildGraph edges).map (fun p => p.1)) =
        dijkstraLoop (buildGraph edges) e
          (((buildGraph edges).map (fun p => p.1)).length + 0)
          (fset (fun _ => none) s (some 0), fun _ => none)
          ((buildGraph edges).map (fun p => p.1)) := by
        rw [dijkstraLoop_fuel_stable _ _ _ _ _ _ (by
          rw [List.length_append, List.length_singleton]
          omega),
          dijkstraLoop_fuel_stable _ _
            (((buildGraph edges).map (fun p => p.1)).length + 0) _ _ _
            (by omega)]
      rw [hstab]
      rcases loop_post_exists hsk hek 0 with ⟨U2, S2, hend2, hinv, hexit⟩
      have hdies := chainDies_endNode hinv
      have hS2 : S2.length ≤
          ((buildGraph edges).map (fun q => q.1)).length :=
        settled_length_le hinv
      have hrecon : reconstructPath
          (dijkstraLoop (buildGraph edges) e
            (((buildGraph edges).map (fun p => p.1)).length + 0)
            (fset (fun _ => none) s (some 0), fun _ => none)
            ((buildGraph edges).map (fun p => p.1))).2
          ((((buildGraph edges).map (fun p => p.1)) ++ [X]).length + 1 + 0)
          (some e) [] =
        reconstructPath
          (dijkstraLoop (buildGraph edges) e
            (((buildGraph edges).map (fun p => p.1)).length + 0)
            (fset (fun _ => none) s (some 0), fun _ => none)
            ((buildGraph edges).map (fun p => p.1))).2
          (((buildGraph edges).map (fun p => p.1)).length + 1 + 0)
          (some e) [] := by
        have h1 := reconstructPath_stable _ (S2.length + 1) (some e) []
          ((((buildGraph edges).map (fun p => p.1)) ++ [X]).length + 1 + 0)
          hdies (by
            rw [List.length_append, List.length_singleton]
            omega)
        have h2 := reconstructPath_stable _ (S2.length + 1) (some e) []
          (((buildGraph edges).map (fun p => p.1)).length + 1 + 0)
          hdies (by omega)
        rw [h1, h2]
      rw [hrecon]


/-! ## The claims

One theorem per claim of the specification audit, together with the
closed counterexamples for the falsified claims and concrete witnesses
for the hypothesised theorems. -/

instance decWalkFrom (g : Graph) (s e : String) (P : List String) :
    Decidable (WalkFrom g s e P) :=
  inferInstanceAs (Decidable (isWalkb g P = true ∧ P.head? = some s ∧
    P.getLast? = some e))

/-- C1 is falsified as stated: with the single edge `("", "B", 1)` (all
weights non-negative) the call `dijkstra [("", "B", 1)] "" "B"` returns
the non-null result `(["B"], 1)`, yet `["B"]` is not a walk from `""`
to `"B"` — it does not even contain the start node.  Cause: line 119,
`current = previous.get(current) || null`, treats the empty string as
falsy, so a predecessor equal to `""` ends the reconstruction loop
early and the start node is dropped from the path. -/
theorem claim_C1_counterexample :
    (∀ ed ∈ [({ from_ := "", to_ := "B", weight := 1 } : GraphEdge)],
      0 ≤ ed.weight) ∧
    dijkstra [⟨"", "B", 1⟩] "" "B" = some (["B"], 1) ∧
    ¬ WalkFrom (buildGraph [⟨"", "B", 1⟩]) "" "B" ["B"] := by
  refine ⟨by with_unfolding_all decide, by with_unfolding_all decide, by with_unfolding_all decide⟩

/-- C1 (amended): for an edge list with non-negative weights none of
whose endpoints is the empty string (ruling out the line-119 falsy
quirk), every non-null result of `dijkstra` carries a path that is a
contiguous walk from start to end in the built undirected graph, whose
total edge weight equals the returned distance, and that distance is
minimal over all walks between the endpoints. -/
theorem claim_C1_amended (edges : List GraphEdge) (s e : String)
    (hnn : ∀ ed ∈ edges, 0 ≤ ed.weight)
    (hne : ∀ ed ∈ edges, ed.from_ ≠ "" ∧ ed.to_ ≠ "") :
    ∀ path dist, dijkstra edges s e = some (path, dist) →
      WalkFrom (buildGraph edges) s e path ∧
      walkCost (buildGraph edges) path = dist ∧
      ∀ Q, WalkFrom (buildGraph edges) s e Q →
        dist ≤ walkCost (buildGraph edges) Q := by
  intro path dist hres
  obtain ⟨hwalk, hcost⟩ := dijkstra_path_spec edges s e hne path dist hres
  obtain ⟨_, hmin⟩ := dijkstra_distance_spec edges s e hnn path dist hres
  exact ⟨hwalk, hcost, hmin⟩

theorem claim_C1_amended_witness :
    WalkFrom (buildGraph [⟨"A", "B", 2⟩]) "A" "B" ["A", "B"] ∧
    walkCost (buildGraph [⟨"A", "B", 2⟩]) ["A", "B"] = 2 :=
  ⟨(claim_C1_amended [⟨"A", "B", 2⟩] "A" "B" (by with_unfolding_all decide) (by with_unfolding_all decide)
      ["A", "B"] 2 (by with_unfolding_all decide)).1,
   (claim_C1_amended [⟨"A", "B", 2⟩] "A" "B" (by with_unfolding_all decide) (by with_unfolding_all decide)
      ["A", "B"] 2 (by with_unfolding_all decide)).2.1⟩

/-- C2: `dijkstra` returns `none` (the model of the JavaScript `null`)
iff start or end never appears as an endpoint of any edge, or start
differs from end and no walk of the built undirected graph connects
them.  The function is total, so every degenerate input (empty edge
list, unknown node, disconnected endpoints) is folded into this same
`none` outcome rather than raising an exception. -/
theorem claim_C2 (edges : List GraphEdge) (s e : String) :
    dijkstra edges s e = none ↔
      mhas (buildGraph edges) s = false ∨
      mhas (buildGraph edges) e = false ∨
      (s ≠ e ∧ ¬ Connected (buildGraph edges) s e) :=
  dijkstra_eq_none_iff edges s e

/-- C3: on the six-node regression fixture (edges A-B:2, B-D:1, D-F:4,
A-C:5, B-E:3, C-E:1, E-F:2 in input order) the call from "A" to "F"
returns distance exactly 7 with one of the two minimal paths; the
linear-scan tie-break selects ["A", "B", "D", "F"]. -/
theorem claim_C3 :
    ∃ p, dijkstra [⟨"A", "B", 2⟩, ⟨"B", "D", 1⟩, ⟨"D", "F", 4⟩,
        ⟨"A", "C", 5⟩, ⟨"B", "E", 3⟩, ⟨"C", "E", 1⟩, ⟨"E", "F", 2⟩]
        "A" "F" = some (p, 7) ∧
      (p = ["A", "B", "E", "F"] ∨ p = ["A", "B", "D", "F"]) :=
  ⟨["A", "B", "D", "F"], by with_unfolding_all decide, Or.inr rfl⟩

/-- C4 is falsified as stated: the claim asserts the identity result
for every X "regardless of whether X appears as an endpoint of any
edge", but the existence check of line 44 runs before the start==end
short-circuit of line 49, so a self-query on a node absent from every
edge returns null: `dijkstra [] "A" "A" = none`, not `([\x22A\x22], 0)`. -/
theorem claim_C4_counterexample :
    dijkstra [] "A" "A" = none ∧
    dijkstra [] "A" "A" ≠ some (["A"], (0 : ℚ)) := by
  with_unfolding_all decide

/-- C4 (amended): whenever X does appear as an endpoint of some edge,
`dijkstra edges X X = some ([X], 0)`: the self-query short-circuit of
lines 49–51 fires right after the existence check passes. -/
theorem claim_C4_amended (edges : List GraphEdge) (X : String)
    (hX : ∃ ed ∈ edges, ed.from_ = X ∨ ed.to_ = X) :
    dijkstra edges X X = some ([X], 0) := by
  have hXk : mhas (buildGraph edges) X = true :=
    (mhas_buildGraph_iff edges X).mpr hX
  rw [dijkstra]
  simp only [dijkstraFueled]
  by_cases hcond : ¬ (mhas (buildGraph edges) X = true ∧
      mhas (buildGraph edges) X = true)
  · exact absurd ⟨hXk, hXk⟩ hcond
  · rw [if_neg hcond]
    simp

theorem claim_C4_amended_witness :
    dijkstra [⟨"A", "B", 1⟩] "A" "A" = some (["A"], 0) :=
  claim_C4_amended [⟨"A", "B", 1⟩] "A" (by with_unfolding_all decide)

/-- C5 is falsified as stated: on the tie diamond A-X:1, X-B:2, A-Y:2,
Y-B:1 both directions have distance 3, but the linear scan of lines
73–79 breaks the tie differently in each direction, so the forward call
returns ["A", "X", "B"] while the backward call returns
["B", "Y", "A"], which is not the reverse of the former. -/
theorem claim_C5_counterexample :
    dijkstra [⟨"A", "X", 1⟩, ⟨"X", "B", 2⟩, ⟨"A", "Y", 2⟩, ⟨"Y", "B", 1⟩]
      "A" "B" = some (["A", "X", "B"], 3) ∧
    dijkstra [⟨"A", "X", 1⟩, ⟨"X", "B", 2⟩, ⟨"A", "Y", 2⟩, ⟨"Y", "B", 1⟩]
      "B" "A" = some (["B", "Y", "A"], 3) ∧
    (["B", "Y", "A"] : List String) ≠ ["A", "X", "B"].reverse := by
  refine ⟨by with_unfolding_all decide, by with_unfolding_all decide, by with_unfolding_all decide⟩

/-- C5 (amended): for non-negative weights the two directions agree on
null-ness and on the returned distance; the reverse-path clause of the
original claim is dropped (see the counterexample). -/
theorem claim_C5_amended (edges : List GraphEdge) (A B : String)
    (hnn : ∀ ed ∈ edges, 0 ≤ ed.weight) :
    (dijkstra edges A B = none ↔ dijkstra edges B A = none) ∧
    (∀ p1 d1 p2 d2, dijkstra edges A B = some (p1, d1) →
      dijkstra edges B A = some (p2, d2) → d1 = d2) :=
  dijkstra_symm_spec edges A B hnn

theorem claim_C5_amended_witness :
    (dijkstra [⟨"A", "B", 1⟩] "A" "B" = none ↔
      dijkstra [⟨"A", "B", 1⟩] "B" "A" = none) ∧ (1 : ℚ) = 1 :=
  ⟨(claim_C5_amended [⟨"A", "B", 1⟩] "A" "B" (by with_unfolding_all decide)).1,
   (claim_C5_amended [⟨"A", "B", 1⟩] "A" "B" (by with_unfolding_all decide)).2
     ["A", "B"] 1 ["B", "A"] 1 (by with_unfolding_all decide) (by with_unfolding_all decide)⟩

/-- The directed adjacency entry (u, v) is written while inserting edge
`e`: lines 39–40 write both the (from, to) and the (to, from) entry. -/
def coversDir (e : GraphEdge) (u v : String) : Bool :=
  decide ((u = e.from_ ∧ v = e.to_) ∨ (u = e.to_ ∧ v = e.from_))

/-- Last-write-wins, per direction: for every edge list, the effective
adjacency weight of the direction (u, v) in the built graph is the
weight of the last edge in input order that covers that direction, and
there is no entry when no edge covers it. -/
theorem adjW_buildGraph_lastWins (edges : List GraphEdge) (u v : String) :
    adjW (buildGraph edges) u v =
      ((edges.filter (fun ed => coversDir ed u v)).getLast?).map
        (fun ed => ed.weight) := by
  induction edges using List.reverseRecOn with
  | nil => rfl
  | append_singleton es e ih =>
    rw [buildGraph_append_one, adjW_addEdge, List.filter_append]
    by_cases h1 : u = e.to_ ∧ v = e.from_
    · rw [if_pos h1]
      have hc : coversDir e u v = true := by
        simp only [coversDir, decide_eq_true_eq]
        exact Or.inr h1
      rw [show List.filter (fun ed => coversDir ed u v) [e] = [e] from by
        simp [List.filter_cons, hc]]
      rw [List.getLast?_concat]
      rfl
    · rw [if_neg h1]
      by_cases h2 : u = e.from_ ∧ v = e.to_
      · rw [if_pos h2]
        have hc : coversDir e u v = true := by
          simp only [coversDir, decide_eq_true_eq]
          exact Or.inl h2
        rw [show List.filter (fun ed => coversDir ed u v) [e] = [e] from by
          simp [List.filter_cons, hc]]
        rw [List.getLast?_concat]
        rfl
      · rw [if_neg h2]
        have hc : coversDir e u v = false := by
          simp only [coversDir, decide_eq_false_iff_not]
          rintro (h | h)
          · exact h2 h
          · exact h1 h
        rw [show List.filter (fun ed => coversDir ed u v) [e] =
            ([] : List GraphEdge) from by simp [List.filter_cons, hc]]
        rw [List.append_nil]
        exact ih

/-- C6: last-write-wins per direction — for every edge list and every
direction (u, v), the effective adjacency weight used by the search is
the weight of the last edge in input order covering that direction
(both orientations of the unordered pair count, per lines 39–40); and
concretely, on [{A,B,5}, {A,B,1}] the effective weight is 1 in each
direction and the call from "A" to "B" returns (["A", "B"], 1). -/
theorem claim_C6 :
    (∀ (edges : List GraphEdge) (u v : String),
      adjW (buildGraph edges) u v =
        ((edges.filter (fun ed => coversDir ed u v)).getLast?).map
          (fun ed => ed.weight)) ∧
    dijkstra [⟨"A", "B", 5⟩, ⟨"A", "B", 1⟩] "A" "B" =
      some (["A", "B"], 1) ∧
    adjW (buildGraph [⟨"A", "B", 5⟩, ⟨"A", "B", 1⟩]) "A" "B" = some 1 ∧
    adjW (buildGraph [⟨"A", "B", 5⟩, ⟨"A", "B", 1⟩]) "B" "A" = some 1 := by
  refine ⟨adjW_buildGraph_lastWins, by with_unfolding_all decide,
    by with_unfolding_all decide, by with_unfolding_all decide⟩

/-- C7: appending a self-loop edge (X, X, w) to any edge list changes
no query whose two endpoints already appear as edge endpoints of the
original list, while the self-neighbor entry is still added to the
adjacency map (and no error occurs: the function stays total). -/
theorem claim_C7 (edges : List GraphEdge) (X : String) (w : ℚ)
    (s e : String)
    (hs : ∃ ed ∈ edges, ed.from_ = s ∨ ed.to_ = s)
    (he : ∃ ed ∈ edges, ed.from_ = e ∨ ed.to_ = e) :
    dijkstra (edges ++ [⟨X, X, w⟩]) s e = dijkstra edges s e ∧
    adjW (buildGraph (edges ++ [⟨X, X, w⟩])) X X = some w := by
  refine ⟨dijkstra_selfloop edges X w s e hs he, ?_⟩
  rw [buildGraph_append_one, adjW_addEdge]
  simp

theorem claim_C7_witness :
    dijkstra [⟨"A", "B", 1⟩, ⟨"Z", "Z", 5⟩] "A" "B" =
      dijkstra [⟨"A", "B", 1⟩] "A" "B" ∧
    adjW (buildGraph [⟨"A", "B", 1⟩, ⟨"Z", "Z", 5⟩]) "Z" "Z" = some 5 :=
  claim_C7 [⟨"A", "B", 1⟩] "Z" 5 "A" "B" (by with_unfolding_all decide) (by with_unfolding_all decide)

/-- C8: the defensive double-check of lines 124–127 is unreachable:
the instrumented computation, which reproduces `dijkstra` exactly and
reports whether control reaches line 125 with an infinite distance or
an empty reconstructed path, returns false on every input. -/
theorem claim_C8 (edges : List GraphEdge) (s e : String) :
    defensiveCheckFires edges s e = false :=
  defensiveCheckFires_eq_false edges s e

/-- C9: determinism — the result is a pure function of the input
triple, so any two calls on identical input produce identical output:
same null-ness, same path element for element, same distance. -/
theorem claim_C9 (edges : List GraphEdge) (s e : String)
    (out1 out2 : Option (List String × ℚ))
    (h1 : out1 = dijkstra edges s e) (h2 : out2 = dijkstra edges s e) :
    out1 = out2 :=
  h1.trans h2.symm

theorem claim_C9_witness :
    (some (["A", "B"], (1 : ℚ)) : Option (List String × ℚ)) =
      some (["A", "B"], (1 : ℚ)) :=
  claim_C9 [⟨"A", "B", 1⟩] "A" "B" (some (["A", "B"], 1))
    (some (["A", "B"], 1)) (by with_unfolding_all decide) (by with_unfolding_all decide)

/-- C10: termination on every input, negative weights included, stated
as fuel-independence of the model: the search loop is modelled with a
budget of |nodes| + k iterations and the reconstruction loop with
|nodes| + 1 + k steps, and every extra budget k yields the same result
as k = 0 — both loops finish within the base budgets, because each
search iteration either breaks or settles exactly one node, and
predecessor links always point at an earlier-settled node, so the
backward chain cannot cycle. -/
theorem claim_C10 (k : Nat) (edges : List GraphEdge) (s e : String) :
    dijkstraFueled k edges s e = dijkstra edges s e :=
  dijkstraFueled_eq_dijkstra k edges s e

end GraphViewer
